import Mathlib

/-!
Verification of the Line-Item Standardization Engine of
`standardized_tables/build_standardized_tables.py`.

The Python source is shallowly embedded: Python `dict`s become insertion-ordered
association lists (`pyInsert` / `pyLookup`), Python `set`s of composite keys
become `List` with membership, dates become `Nat` (the code only ever compares
dates, so any linearly ordered carrier is faithful), fallible code (Python
`raise` / `KeyError`) returns `Except String`, and the external LLM call is a
parameter (`oracle`) whose `none` result models an unparseable response.
String normalisation uses ASCII semantics (the repository's data is ASCII).
-/

namespace JSEStd

/-! ### Python dict / set primitives -/

/-- Python `d[k] = v`: replaces the value in place if `k` is present (insertion
order of the first occurrence is kept), otherwise appends. -/
def pyInsert {α β : Type} [DecidableEq α] (k : α) (v : β) : List (α × β) → List (α × β)
  | [] => [(k, v)]
  | (k', v') :: rest => if k' = k then (k, v) :: rest else (k', v') :: pyInsert k v rest

/-- Python `d.get(k)` / `d[k]` on an insertion-ordered association list. -/
def pyLookup {α β : Type} [DecidableEq α] : List (α × β) → α → Option β
  | [], _ => none
  | p :: rest, k => if p.1 = k then some p.2 else pyLookup rest k

/-- Python `{k: v for (k, v) in l}`: fold the pairs left-to-right, later
occurrences of a key overwrite earlier ones. -/
def pyDictOf {α β : Type} [DecidableEq α] (l : List (α × β)) : List (α × β) :=
  l.foldl (fun d p => pyInsert p.1 p.2 d) []

/-- Python `max(l)` (raises on empty, modelled by `none`). -/
def pyMax : List Nat → Option Nat
  | [] => none
  | x :: xs => some (xs.foldl Nat.max x)

/-! ### helpers: `norm`, `run_id` scoping, `similarity` threshold inputs -/

/-- The three characters stripped by `NORMALISE_RE = re.compile(r"[ \-']")`:
space, hyphen, apostrophe. -/
def strippedChars : List Char := [Char.ofNat 32, Char.ofNat 45, Char.ofNat 39]

/-- `norm(s) = NORMALISE_RE.sub("", s.lower())`: lowercase, then delete every
space, hyphen and apostrophe; all other characters are kept unchanged. -/
def norm (s : String) : String :=
  String.mk ((s.data.map Char.toLower).filter (fun c => !(strippedChars.contains c)))

/-- Truthiness of Python `v and isinstance(v, str) and v.strip()`: the string
has at least one non-whitespace character. -/
def hasContent (s : String) : Bool :=
  s.data.any (fun c => !c.isWhitespace)

/-- The sentinel values a canonical item can map to instead of a raw header. -/
def sentinels : List String := ["NONE", "AMBIG", "LLM_ERROR"]

/-! ### Snapshot Resolver: `choose_snapshot` -/

/-- `choose_snapshot(dates, report_date)` from the source:
raises on an empty list; with one date returns it; with two returns the later
one when `report_date >= later` and the earlier one otherwise; with three or
more returns `max(d for d in sorted_dates if d <= report_date)` (which raises
when no date qualifies).  Dates are modelled as `Nat`. -/
def chooseSnapshot (dates : List Nat) (reportDate : Nat) : Except String Nat :=
  if dates.isEmpty then .error "no snapshot dates"
  else
    match dates.insertionSort (· ≤ ·) with
    | [d] => .ok d
    | [d0, d1] => .ok (if d1 ≤ reportDate then d1 else d0)
    | sorted =>
      match pyMax (sorted.filter (fun d => d ≤ reportDate)) with
      | some m => .ok m
      | none => .error "max() arg is an empty sequence"

/-! ### `similarity`: `difflib.SequenceMatcher(None, a.lower(), b.lower()).ratio()`

The embedding follows CPython's `difflib` with `isjunk=None` (so the junk set
is empty and the junk-extension loops never fire) and `autojunk=True` (elements
of `b` are dropped from the index when `len(b) >= 200` and they occur more than
`len(b)//100 + 1` times). -/

/-- The `autojunk` "popular" elements of `b`. -/
def b2jPopular (b : List Char) : List Char :=
  if b.length < 200 then []
  else b.dedup.filter (fun c => b.length / 100 + 1 < b.count c)

/-- `b2j[c]`: ascending positions of `c` in `b`, with popular elements removed
(absent elements give the empty list, like `b2j.get(a[i], [])`). -/
def b2j (b : List Char) (c : Char) : List Nat :=
  if (b2jPopular b).contains c then []
  else (List.range b.length).filter (fun j => b.get? j == some c)

/-- The running best block of `find_longest_match`. -/
structure FLMBest where
  besti : Nat
  bestj : Nat
  bestsize : Nat
deriving Repr, DecidableEq

/-- One iteration of the outer `for i in range(alo, ahi)` loop of
`find_longest_match`: folds the positions `j` of `a[i]` in `b`, building
`newj2len` from the previous row `old` and updating the best block.  Python's
`j2len.get(j-1, 0)` reads key `-1` (absent) when `j = 0`, hence the guard. -/
def flmRow (blo bhi i : Nat) (js : List Nat) (old : List (Nat × Nat))
    (acc0 : List (Nat × Nat) × FLMBest) : List (Nat × Nat) × FLMBest :=
  js.foldl
    (fun acc j =>
      if j < blo ∨ bhi ≤ j then acc
      else
        let k := (if j = 0 then 0 else (pyLookup old (j - 1)).getD 0) + 1
        let row := pyInsert j k acc.1
        if acc.2.bestsize < k then (row, ⟨i + 1 - k, j + 1 - k, k⟩) else (row, acc.2))
    acc0

/-- The dynamic-programming phase of `find_longest_match`. -/
def flmMain (a b : List Char) (alo ahi blo bhi : Nat) : FLMBest :=
  ((List.range' alo (ahi - alo)).foldl
    (fun (acc : List (Nat × Nat) × FLMBest) i =>
      flmRow blo bhi i (b2j b (a.getD i (Char.ofNat 0))) acc.1 ([], acc.2))
    ([], ⟨alo, blo, 0⟩)).2

/-- The backward extension loop of `find_longest_match` (the junk set is empty,
so `not isbjunk(...)` is always true).  `fuel = besti` bounds the loop. -/
def flmExtendBack (a b : List Char) (alo blo : Nat) : Nat → FLMBest → FLMBest
  | 0, st => st
  | fuel + 1, st =>
    if alo < st.besti && blo < st.bestj && (a.get? (st.besti - 1)).isSome &&
        a.get? (st.besti - 1) == b.get? (st.bestj - 1) then
      flmExtendBack a b alo blo fuel ⟨st.besti - 1, st.bestj - 1, st.bestsize + 1⟩
    else st

/-- The forward extension loop of `find_longest_match`. -/
def flmExtendFwd (a b : List Char) (ahi bhi : Nat) : Nat → FLMBest → FLMBest
  | 0, st => st
  | fuel + 1, st =>
    if st.besti + st.bestsize < ahi && st.bestj + st.bestsize < bhi &&
        (a.get? (st.besti + st.bestsize)).isSome &&
        a.get? (st.besti + st.bestsize) == b.get? (st.bestj + st.bestsize) then
      flmExtendFwd a b ahi bhi fuel ⟨st.besti, st.bestj, st.bestsize + 1⟩
    else st

/-- `find_longest_match(alo, ahi, blo, bhi)`. -/
def findLongestMatch (a b : List Char) (alo ahi blo bhi : Nat) : FLMBest :=
  let st := flmMain a b alo ahi blo bhi
  let st := flmExtendBack a b alo blo st.besti st
  flmExtendFwd a b ahi bhi (ahi - (st.besti + st.bestsize)) st

/-- Total size of the matching blocks of `get_matching_blocks` (the recursive
splitting around each longest match); the fuel bounds the recursion depth,
which never exceeds `len(a) + len(b) + 1`. -/
def matchTotalGo (a b : List Char) : Nat → Nat → Nat → Nat → Nat → Nat
  | 0, _, _, _, _ => 0
  | fuel + 1, alo, ahi, blo, bhi =>
    let st := findLongestMatch a b alo ahi blo bhi
    if st.bestsize = 0 then 0
    else
      st.bestsize + matchTotalGo a b fuel alo st.besti blo st.bestj +
        matchTotalGo a b fuel (st.besti + st.bestsize) ahi (st.bestj + st.bestsize) bhi

/-- `sum(size for block in get_matching_blocks())` over the whole strings. -/
def matchTotal (a b : List Char) : Nat :=
  matchTotalGo a b (a.length + b.length + 1) 0 a.length 0 b.length

/-- `similarity(a, b) = SequenceMatcher(None, a.lower(), b.lower()).ratio()`,
i.e. `2.0 * M / T` where `M` is the total matched size and `T` the sum of the
lengths (`ratio` returns `1.0` when `T = 0`). -/
def similarity (a b : String) : ℚ :=
  let la := a.data.map Char.toLower
  let lb := b.data.map Char.toLower
  if la.length + lb.length = 0 then 1
  else (2 * matchTotal la lb : ℚ) / (la.length + lb.length)

/-- The source's `sim_score >= 0.70` test, written on the exact rational ratio
`2M / T` as the integer comparison `7T <= 20M` (equivalent to the float
comparison for all realistic string lengths; also true when `T = 0`, where
`ratio()` returns `1.0`). -/
def simPass (a b : String) : Bool :=
  let la := a.data.map Char.toLower
  let lb := b.data.map Char.toLower
  7 * (la.length + lb.length) ≤ 20 * matchTotal la lb

/-! ### `%.2f` formatting of the similarity score (used in `llm_detail`) -/

/-- Round to the nearest integer, ties to even (the rounding of `%.2f`). -/
def roundHalfEven (q : ℚ) : ℤ :=
  let f := Int.floor q
  let r := q - f
  if r < 1/2 then f
  else if 1/2 < r then f + 1
  else if f % 2 = 0 then f else f + 1

/-- Two-digit zero-padded rendering of `n < 100`. -/
def padTwo (n : Nat) : String :=
  if n < 10 then "0" ++ toString n else toString n

/-- `"%.2f" % q` for `q ∈ [0, 1]` (the similarity ratio). -/
def fmtSim (q : ℚ) : String :=
  let n := (roundHalfEven (100 * q)).toNat
  toString (n / 100) ++ "." ++ padTwo (n % 100)

/-! ### Data model -/

/-- `{standardized -> [company_variants]}` (a Python dict, insertion-ordered,
duplicate-free keys). -/
abbrev CanonMap := List (String × List String)

/-- `variant_map : {norm(variant) -> (company_variant, standardized)}`. -/
abbrev VariantMap := List (String × (String × String))

/-- The dedup composite key
`(raw_line_item, snapshot_date, report_date, period, period_type, group_or_company_level)`. -/
abbrev MapKey := String × Option Nat × Nat × String × String × String

/-- One `(report_date, period, period_type, group_or_company_level)` slice key. -/
structure SliceKey where
  reportDate : Nat
  period : String
  periodType : String
  gcl : String
deriving Repr, DecidableEq

/-- A slice's payload: a representative csv path (`next(iter(csv_set))`) and
the set of raw line-item headers (modelled as a duplicate-free list). -/
structure SliceData where
  csvPath : String
  headers : List String
deriving Repr, DecidableEq

/-- One row of `staging_line_item_mapping`. -/
structure MapRow where
  runId : String
  symbol : String
  snapshotDate : Option Nat
  reportDate : Nat
  period : String
  periodType : String
  gcl : String
  rawLineItem : String
  companyLineItem : String
  stdLineItem : String
  matchType : String
deriving Repr, DecidableEq

/-- One row of `standardization_audit`. -/
structure AuditRow where
  runId : String
  symbol : String
  csvPath : String
  reportDate : Nat
  period : String
  periodType : String
  gcl : String
  snapshotDate : Option Nat
  companyLineItem : Option String
  stdLineItem : Option String
  status : String
  llmDetail : Option String
deriving Repr, DecidableEq

/-- The per-company mutable state: `seen_map_keys`, `map_rows`, `audit_rows`. -/
structure PassState where
  seen : List MapKey
  mapRows : List MapRow
  auditRows : List AuditRow
deriving Repr, DecidableEq

/-- The empty state at the start of `process_company`. -/
def initState : PassState := ⟨[], [], []⟩

/-- The composite key of a would-be mapping row. -/
def mkKey (raw : String) (snap : Option Nat) (k : SliceKey) : MapKey :=
  (raw, snap, k.reportDate, k.period, k.periodType, k.gcl)

/-- The composite key recorded in an emitted mapping row. -/
def rowKey (r : MapRow) : MapKey :=
  (r.rawLineItem, r.snapshotDate, r.reportDate, r.period, r.periodType, r.gcl)

/-! ### Lookup-structure construction (`_add_variant` and the two loops) -/

/-- `_add_variant(v, std)`: skip null/blank variants, register the normalized
key (overwriting any earlier variant with the same normalized form). -/
def addVariant (vm : VariantMap) (v std : String) : VariantMap :=
  if hasContent v then pyInsert (norm v) (v, std) vm else vm

/-- `for v in variants: _add_variant(v, std)`. -/
def addVariants (vm : VariantMap) (std : String) (vs : List String) : VariantMap :=
  vs.foldl (fun m v => addVariant m v std) vm

/-- Builds `(variant_map, canonical_items)` exactly as `handle_slice` does:
snapshot-dated canonicals first (each appended to `canonical_items`, its
variants then itself registered), then the timeless ones (appended only when
not already present), and finally the `std and isinstance(std, str)` filter
(which keeps whitespace-only strings). -/
def buildVocab (snapCanon : Option CanonMap) (timeless : CanonMap) :
    VariantMap × List String :=
  let acc1 : VariantMap × List String :=
    match snapCanon with
    | none => ([], [])
    | some cm =>
      cm.foldl
        (fun acc p =>
          let items := acc.2 ++ [p.1]
          let vm := addVariants acc.1 p.1 p.2
          (addVariant vm p.1 p.1, items))
        ([], [])
  let acc2 :=
    timeless.foldl
      (fun acc p =>
        let items := if p.1 ∈ acc.2 then acc.2 else acc.2 ++ [p.1]
        let vm := addVariants acc.1 p.1 p.2
        (addVariant vm p.1 p.1, items))
      acc1
  (acc2.1, acc2.2.filter (fun std => std != ""))

/-! ### The LLM-assisted matcher: `map_canonical_to_raw` -/

/-- A successfully JSON-decoded response: the list of
`(company_line_item, raw_match)` entries; `none` models any malformed
response (JSON decode failure or missing keys, both caught by the
`try/except`). -/
abbrev LLMResp := Option (List (String × String))

/-- The external LLM service, as a function of the two candidate lists that
parameterize the request prompt and enum schema. -/
abbrev Oracle := List String → List String → LLMResp

/-- `valid_canonical`: the canonical items admitted into the request schema. -/
def validCanonical (canonicalItems : List String) : List String :=
  canonicalItems.filter (fun c => hasContent c)

/-- `valid_raws`: the raw headers admitted into the request schema. -/
def validRaws (rawHeaders : List String) : List String :=
  rawHeaders.filter (fun r => hasContent r)

/-- The `raw_match` enum of the response schema: `valid_raws + ["NONE", "AMBIG"]`. -/
def schemaRawEnum (rawHeaders : List String) : List String :=
  validRaws rawHeaders ++ ["NONE", "AMBIG"]

/-- The §6 boundary contract: the decoded response respects the enum-constrained
response schema built by `map_canonical_to_raw`. -/
def respHonorsSchema (canonicalItems rawHeaders : List String)
    (arr : List (String × String)) : Prop :=
  ∀ p ∈ arr, p.1 ∈ validCanonical canonicalItems ∧ p.2 ∈ schemaRawEnum rawHeaders

/-- `map_canonical_to_raw`: on a decodable response, the dict comprehension
`{d["company_line_item"]: d["raw_match"] for d in arr}`; on a malformed one,
`{c: "LLM_ERROR" for c in canonical_items}`. -/
def mapCanonicalToRaw (canonicalItems rawHeaders : List String) (resp : LLMResp) :
    List (String × String) :=
  match resp with
  | some arr => pyDictOf arr
  | none => pyDictOf (canonicalItems.map (fun c => (c, "LLM_ERROR")))

/-! ### `handle_slice` -/

/-- The per-slice constants threaded through the passes. -/
structure SliceCtx where
  run : String
  symbol : String
  csvPath : String
  key : SliceKey
  snapshotDate : Option Nat
deriving Repr, DecidableEq

/-- The `match_type="EXACT"` row appended by the exact pass. -/
def exactMapRow (ctx : SliceCtx) (raw cv std : String) : MapRow :=
  ⟨ctx.run, ctx.symbol, ctx.snapshotDate, ctx.key.reportDate, ctx.key.period,
    ctx.key.periodType, ctx.key.gcl, raw, cv, std, "EXACT"⟩

/-- The `match_type="LLM"` row appended by the LLM pass. -/
def llmMapRow (ctx : SliceCtx) (rawMatch canonical std : String) : MapRow :=
  ⟨ctx.run, ctx.symbol, ctx.snapshotDate, ctx.key.reportDate, ctx.key.period,
    ctx.key.periodType, ctx.key.gcl, rawMatch, canonical, std, "LLM"⟩

/-- The `LOW_CONFIDENCE` audit row. -/
def lowConfRow (ctx : SliceCtx) (canonical std rawMatch : String) (simScore : ℚ) :
    AuditRow :=
  ⟨ctx.run, ctx.symbol, ctx.csvPath, ctx.key.reportDate, ctx.key.period,
    ctx.key.periodType, ctx.key.gcl, ctx.snapshotDate, some canonical, some std,
    "LOW_CONFIDENCE", some (rawMatch ++ " (sim=" ++ fmtSim simScore ++ ")")⟩

/-- The `NONE` / `AMBIG` / `LLM_ERROR` audit row. -/
def sentinelRow (ctx : SliceCtx) (canonical std status : String) : AuditRow :=
  ⟨ctx.run, ctx.symbol, ctx.csvPath, ctx.key.reportDate, ctx.key.period,
    ctx.key.periodType, ctx.key.gcl, ctx.snapshotDate, some canonical, some std,
    status, none⟩

/-- The `RAW_UNMAPPED` audit row (no company/standardized item). -/
def rawUnmappedRow (ctx : SliceCtx) (raw : String) : AuditRow :=
  ⟨ctx.run, ctx.symbol, ctx.csvPath, ctx.key.reportDate, ctx.key.period,
    ctx.key.periodType, ctx.key.gcl, ctx.snapshotDate, none, none,
    "RAW_UNMAPPED", some raw⟩

/-- The `EXPECTED_MISSING` audit row. -/
def expectedMissingRow (ctx : SliceCtx) (missing std : String) : AuditRow :=
  ⟨ctx.run, ctx.symbol, ctx.csvPath, ctx.key.reportDate, ctx.key.period,
    ctx.key.periodType, ctx.key.gcl, ctx.snapshotDate, some missing, some std,
    "EXPECTED_MISSING", none⟩

/-- One iteration of the exact-match loop: on a normalized hit, add the company
variant to `mapped_lookup` and append an `EXACT` row unless the composite key
was already seen. -/
def exactStep (ctx : SliceCtx) (vm : VariantMap)
    (acc : List String × PassState) (raw : String) : List String × PassState :=
  match pyLookup vm (norm raw) with
  | none => acc
  | some (cv, std) =>
    let mapped := cv :: acc.1
    let key := mkKey raw ctx.snapshotDate ctx.key
    if key ∈ acc.2.seen then (mapped, acc.2)
    else
      (mapped,
        { acc.2 with
          seen := key :: acc.2.seen,
          mapRows := acc.2.mapRows ++ [exactMapRow ctx raw cv std] })

/-- The exact-match pass over the slice's raw headers. -/
def exactPass (ctx : SliceCtx) (vm : VariantMap) :
    List String → List String × PassState → List String × PassState
  | [], acc => acc
  | raw :: rest, acc => exactPass ctx vm rest (exactStep ctx vm acc raw)

/-- One iteration of the LLM result loop for one canonical item.  Mirrors the
source order: a non-sentinel match joins `mapped_lookup`, is deduplicated
against `seen_map_keys`, and a sub-0.70 similarity additionally appends a
`LOW_CONFIDENCE` audit row; a sentinel result appends an audit row with that
status.  Each `variant_map[norm(canonical)]` lookup is fallible (`KeyError`),
exactly where the source performs it. -/
def llmStep (ctx : SliceCtx) (vm : VariantMap) (llmRes : List (String × String))
    (acc : List String × PassState) (canonical : String) :
    Except String (List String × PassState) :=
  let rawMatch := (pyLookup llmRes canonical).getD "LLM_ERROR"
  let simScore : ℚ := if rawMatch ∈ sentinels then 0 else similarity canonical rawMatch
  if rawMatch ∈ sentinels then
    match pyLookup vm (norm canonical) with
    | none => .error "KeyError: variant_map"
    | some (_, std) =>
      .ok (acc.1,
        { acc.2 with auditRows := acc.2.auditRows ++ [sentinelRow ctx canonical std rawMatch] })
  else
    let mapped := canonical :: acc.1
    let key := mkKey rawMatch ctx.snapshotDate ctx.key
    if key ∈ acc.2.seen then
      if simPass canonical rawMatch then .ok (mapped, acc.2)
      else
        match pyLookup vm (norm canonical) with
        | none => .error "KeyError: variant_map"
        | some (_, std) =>
          .ok (mapped,
            { acc.2 with auditRows :=
                acc.2.auditRows ++ [lowConfRow ctx canonical std rawMatch simScore] })
    else
      match pyLookup vm (norm canonical) with
      | none => .error "KeyError: variant_map"
      | some (_, std) =>
        let st : PassState :=
          { acc.2 with
            seen := key :: acc.2.seen,
            mapRows := acc.2.mapRows ++ [llmMapRow ctx rawMatch canonical std] }
        if simPass canonical rawMatch then .ok (mapped, st)
        else
          .ok (mapped,
            { st with auditRows := st.auditRows ++ [lowConfRow ctx canonical std rawMatch simScore] })

/-- The LLM pass: `for canonical in canonical_items: ...`. -/
def llmLoop (ctx : SliceCtx) (vm : VariantMap) (llmRes : List (String × String)) :
    List String → List String × PassState → Except String (List String × PassState)
  | [], acc => .ok acc
  | c :: rest, acc =>
    match llmStep ctx vm llmRes acc c with
    | .error e => .error e
    | .ok acc' => llmLoop ctx vm llmRes rest acc'

/-- The `RAW_UNMAPPED` pass: headers matching neither the exact matcher nor any
non-sentinel LLM value are recorded as noise. -/
def rawUnmappedPass (ctx : SliceCtx) (vm : VariantMap) (llmRes : List (String × String))
    (headers : List String) (st : PassState) : PassState :=
  let exactMatched := headers.filter (fun r => (pyLookup vm (norm r)).isSome)
  let mappedRaws := (llmRes.map (·.2)).filter (fun rm => !(sentinels.contains rm))
  let noise := headers.filter
    (fun r => !(exactMatched.contains r) && !(mappedRaws.contains r))
  { st with auditRows := st.auditRows ++ noise.map (rawUnmappedRow ctx) }

/-- The `EXPECTED_MISSING` loop body (the `variant_map[norm(missing)]` lookup
is fallible in the source, though provably always succeeds). -/
def emLoop (ctx : SliceCtx) (vm : VariantMap) :
    List String → PassState → Except String PassState
  | [], st => .ok st
  | m :: rest, st =>
    match pyLookup vm (norm m) with
    | none => .error "KeyError: variant_map"
    | some (_, std) =>
      emLoop ctx vm rest
        { st with auditRows := st.auditRows ++ [expectedMissingRow ctx m std] }

/-- The `EXPECTED_MISSING` pass: every variant value of `variant_map` not in
`mapped_lookup` is audited. -/
def expectedMissingPass (ctx : SliceCtx) (vm : VariantMap) (mapped : List String)
    (st : PassState) : Except String PassState :=
  let expected := vm.map (fun p => p.2.1)
  emLoop ctx vm (expected.filter (fun v => !(mapped.contains v))) st

/-- `handle_slice`: snapshot resolution, vocabulary construction, the exact
pass, the LLM pass over `canonical_items` with the full header list, the
`RAW_UNMAPPED` pass and the `EXPECTED_MISSING` pass, updating the company-wide
state. -/
def handleSlice (run symbol : String) (dated : List (Nat × CanonMap))
    (timeless : CanonMap) (oracle : Oracle) (st0 : PassState) (k : SliceKey)
    (d : SliceData) : Except String PassState :=
  let snapRes : Except String (Option Nat) :=
    if dated.isEmpty then .ok none
    else
      match chooseSnapshot (dated.map (·.1)) k.reportDate with
      | .error e => .error e
      | .ok sd => .ok (some sd)
  match snapRes with
  | .error e => .error e
  | .ok snapshotDate =>
    let snapCanonRes : Except String (Option CanonMap) :=
      match snapshotDate with
      | none => .ok none
      | some sd =>
        match pyLookup dated sd with
        | some cm => .ok (some cm)
        | none => .error "KeyError: dated_snaps"
    match snapCanonRes with
    | .error e => .error e
    | .ok snapCanon =>
      let vc := buildVocab snapCanon timeless
      let vm := vc.1
      let canonicalItems := vc.2
      let ctx : SliceCtx := ⟨run, symbol, d.csvPath, k, snapshotDate⟩
      let rawHeaders := d.headers
      let acc1 := exactPass ctx vm rawHeaders ([], st0)
      let llmRes := mapCanonicalToRaw canonicalItems rawHeaders (oracle canonicalItems rawHeaders)
      match llmLoop ctx vm llmRes canonicalItems acc1 with
      | .error e => .error e
      | .ok acc2 =>
        let st3 := rawUnmappedPass ctx vm llmRes rawHeaders acc2.2
        expectedMissingPass ctx vm acc2.1 st3

/-- The company-processing pass over its slices (the cooperative scheduler
interleaves slices, but every state update between awaits is atomic and the
dedup keys of distinct slices are disjoint, so any serialization is
equivalent). -/
def processSlices (run symbol : String) (dated : List (Nat × CanonMap))
    (timeless : CanonMap) (oracle : Oracle) :
    List (SliceKey × SliceData) → PassState → Except String PassState
  | [], st => .ok st
  | (k, d) :: rest, st =>
    match handleSlice run symbol dated timeless oracle st k d with
    | .error e => .error e
    | .ok st' => processSlices run symbol dated timeless oracle rest st'

/-! ### Derived definitions used by the verification statements -/

/-- The `(canonical_items, raw_headers)` argument pair that `handle_slice`
hands to `map_canonical_to_raw` (after the same snapshot resolution and
vocabulary construction as `handleSlice`). -/
def llmCallArgs (dated : List (Nat × CanonMap)) (timeless : CanonMap) (k : SliceKey)
    (d : SliceData) : Except String (List String × List String) :=
  let snapRes : Except String (Option Nat) :=
    if dated.isEmpty then .ok none
    else
      match chooseSnapshot (dated.map (·.1)) k.reportDate with
      | .error e => .error e
      | .ok sd => .ok (some sd)
  match snapRes with
  | .error e => .error e
  | .ok snapshotDate =>
    match snapshotDate with
    | none => .ok ((buildVocab none timeless).2, d.headers)
    | some sd =>
      match pyLookup dated sd with
      | some cm => .ok ((buildVocab (some cm) timeless).2, d.headers)
      | none => .error "KeyError: dated_snaps"

/-- Mapping rows of a successful slice result (empty on error). -/
def okMapRows : Except String PassState → List MapRow
  | .ok s => s.mapRows
  | .error _ => []

/-- Audit rows of a successful slice result (empty on error). -/
def okAuditRows : Except String PassState → List AuditRow
  | .ok s => s.auditRows
  | .error _ => []

/-- The spec-side resolved vocabulary (§4.3): every `(variant, canonical)`
pair of the chosen snapshot and of the timeless map, where each canonical
name is implicitly a variant of itself. -/
def vocabPairs (snapCanon : Option CanonMap) (timeless : CanonMap) :
    List (String × String) :=
  (match snapCanon with
   | none => []
   | some cm => cm.flatMap (fun p => p.2.map (fun v => (v, p.1)) ++ [(p.1, p.1)])) ++
    timeless.flatMap (fun p => p.2.map (fun v => (v, p.1)) ++ [(p.1, p.1)])

/-- The deduplication invariant: emitted mapping rows have pairwise-distinct
composite keys, each of which is recorded in `seen_map_keys`. -/
def DedupInv (s : PassState) : Prop :=
  (s.mapRows.map rowKey).Nodup ∧ ∀ r ∈ s.mapRows, rowKey r ∈ s.seen

/-- A composite key belongs to slice `k`. -/
def keyInSlice (key : MapKey) (k : SliceKey) : Prop :=
  key.2.2.1 = k.reportDate ∧ key.2.2.2.1 = k.period ∧
    key.2.2.2.2.1 = k.periodType ∧ key.2.2.2.2.2 = k.gcl

/-- A mapping row belongs to slice `k`. -/
def recInSlice (rec : MapRow) (k : SliceKey) : Prop :=
  rec.reportDate = k.reportDate ∧ rec.period = k.period ∧
    rec.periodType = k.periodType ∧ rec.gcl = k.gcl

/-- An audit row belongs to slice `k`. -/
def rowInSlice (row : AuditRow) (k : SliceKey) : Prop :=
  row.reportDate = k.reportDate ∧ row.period = k.period ∧
    row.periodType = k.periodType ∧ row.gcl = k.gcl

/-- Exactly one of three alternatives holds. -/
def exactlyOne (p q r : Prop) : Prop :=
  (p ∧ ¬q ∧ ¬r) ∨ (¬p ∧ q ∧ ¬r) ∨ (¬p ∧ ¬q ∧ r)

/-- The fold of `_add_variant` over `(variant, canonical)` pairs. -/
def vmFold (init : VariantMap) (pairs : List (String × String)) : VariantMap :=
  pairs.foldl (fun m p => addVariant m p.1 p.2) init

/-- The last pair of `pairs` whose non-blank variant normalizes to `key`
(the final overwriter of that key in the `_add_variant` fold). -/
def lastWriter : List (String × String) → String → Option (String × String)
  | [], _ => none
  | p :: rest, key =>
    match lastWriter rest key with
    | some q => some q
    | none => if hasContent p.1 && (norm p.1 == key) then some p else none

/-- The `mapped_raws` set of the `RAW_UNMAPPED` pass: non-sentinel values of
the LLM result dict. -/
def mappedRawsOf (llmRes : List (String × String)) : List String :=
  (llmRes.map (·.2)).filter (fun rm => !(sentinels.contains rm))

/-- The `unmapped_noise` set of the `RAW_UNMAPPED` pass: headers matching
neither the exact matcher nor any non-sentinel LLM value. -/
def noiseOf (vm : VariantMap) (llmRes : List (String × String))
    (headers : List String) : List String :=
  headers.filter (fun r =>
    !((headers.filter (fun r' => (pyLookup vm (norm r')).isSome)).contains r) &&
      !((mappedRawsOf llmRes).contains r))

/-! ## Theorems -/

/-! ### `pyMax` and sorting lemmas -/

theorem foldl_max_spec (xs : List Nat) (x : Nat) :
    (xs.foldl Nat.max x = x ∨ xs.foldl Nat.max x ∈ xs) ∧
      x ≤ xs.foldl Nat.max x ∧ ∀ y ∈ xs, y ≤ xs.foldl Nat.max x := by
  induction xs generalizing x with
  | nil => simp
  | cons y ys ih =>
    have h := ih (Nat.max x y)
    refine ⟨?_, ?_, ?_⟩
    · rcases h.1 with h1 | h1
      · rcases le_total x y with hm | hm
        · right
          have hxy : x.max y = y := Nat.max_eq_right hm
          rw [List.foldl_cons, h1, hxy]
          exact List.mem_cons_self _ _
        · left
          have hxy : x.max y = x := Nat.max_eq_left hm
          rw [List.foldl_cons, h1, hxy]
      · right; exact List.mem_cons_of_mem _ h1
    · exact le_trans (Nat.le_max_left x y) h.2.1
    · intro z hz
      rcases List.mem_cons.mp hz with rfl | hz
      · exact le_trans (Nat.le_max_right x z) h.2.1
      · exact h.2.2 z hz

theorem pyMax_spec (l : List Nat) (h : l ≠ []) :
    ∃ m, pyMax l = some m ∧ m ∈ l ∧ ∀ x ∈ l, x ≤ m := by
  cases l with
  | nil => exact absurd rfl h
  | cons x xs =>
    have hs := foldl_max_spec xs x
    refine ⟨xs.foldl Nat.max x, rfl, ?_, ?_⟩
    · rcases hs.1 with h1 | h1
      · rw [h1]; exact List.mem_cons_self _ _
      · exact List.mem_cons_of_mem _ h1
    · intro y hy
      rcases List.mem_cons.mp hy with rfl | hy
      · exact hs.2.1
      · exact hs.2.2 y hy

theorem insertionSort_eq_of_perm_sorted (l s : List Nat) (hp : l.Perm s)
    (hs : s.Sorted (· ≤ ·)) : l.insertionSort (· ≤ ·) = s :=
  List.eq_of_perm_of_sorted ((List.perm_insertionSort _ l).trans hp)
    (List.sorted_insertionSort _ l) hs

/-! ### C2 / C3: the Snapshot Resolver -/

theorem chooseSnapshot_one (d t : Nat) : chooseSnapshot [d] t = .ok d := by
  simp [chooseSnapshot, List.insertionSort, List.orderedInsert]

theorem chooseSnapshot_two (l : List Nat) (d1 d2 t : Nat) (h12 : d1 < d2)
    (hl : l = [d1, d2] ∨ l = [d2, d1]) :
    chooseSnapshot l t = .ok (if d2 ≤ t then d2 else d1) := by
  have hne : l ≠ [] := by rcases hl with rfl | rfl <;> simp
  have hsortl : l.insertionSort (· ≤ ·) = [d1, d2] := by
    apply insertionSort_eq_of_perm_sorted
    · rcases hl with rfl | rfl
      · exact List.Perm.refl _
      · exact List.Perm.swap d1 d2 []
    · simp [List.sorted_cons]; omega
  rcases hl with rfl | rfl <;>
    · unfold chooseSnapshot
      rw [if_neg (by simp)]
      rw [hsortl]

theorem chooseSnapshot_many (l : List Nat) (t : Nat) (h3 : 3 ≤ l.length)
    (hex : ∃ d ∈ l, d ≤ t) :
    ∃ m, chooseSnapshot l t = .ok m ∧ m ∈ l ∧ m ≤ t ∧ ∀ d ∈ l, d ≤ t → d ≤ m := by
  have hne : l ≠ [] := by intro h; subst h; simp at h3
  have hperm := List.perm_insertionSort (· ≤ ·) l
  have hlen : (l.insertionSort (· ≤ ·)).length = l.length := hperm.length_eq
  obtain ⟨a, b, c, rest, hs⟩ : ∃ a b c rest,
      l.insertionSort (· ≤ ·) = a :: b :: c :: rest := by
    rcases hsort : l.insertionSort (· ≤ ·) with _ | ⟨a, _ | ⟨b, _ | ⟨c, rest⟩⟩⟩ <;>
      rw [hsort] at hlen <;> simp at hlen <;> try omega
    · exact ⟨a, b, c, rest, rfl⟩
  have hmemiff : ∀ x, x ∈ a :: b :: c :: rest ↔ x ∈ l := by
    intro x; rw [← hs]; exact hperm.mem_iff
  have hfilne : (a :: b :: c :: rest).filter (fun d => d ≤ t) ≠ [] := by
    obtain ⟨d, hdl, hdt⟩ := hex
    have : d ∈ (a :: b :: c :: rest).filter (fun d => d ≤ t) :=
      List.mem_filter.mpr ⟨(hmemiff d).mpr hdl, by simpa using hdt⟩
    intro hnil; rw [hnil] at this; simp at this
  obtain ⟨m, hm, hmem, hmax⟩ := pyMax_spec _ hfilne
  refine ⟨m, ?_, ?_, ?_, ?_⟩
  · unfold chooseSnapshot
    rw [if_neg (by simp [hne])]
    rw [hs]
    show (match pyMax ((a :: b :: c :: rest).filter (fun d => d ≤ t)) with
      | some m => Except.ok m
      | none => Except.error "max() arg is an empty sequence") = Except.ok m
    rw [hm]
  · exact (hmemiff m).mp (List.mem_filter.mp hmem).1
  · simpa using (List.mem_filter.mp hmem).2
  · intro d hdl hdt
    exact hmax d (List.mem_filter.mpr ⟨(hmemiff d).mpr hdl, by simpa using hdt⟩)

/-- C2: `choose_snapshot` returns the single known date regardless of the
target; with two dates the later one exactly when `target >= later`, else
the earlier; with three or more dates the greatest date `<= target`
(whenever one exists); and with zero dates it raises instead of
returning. -/
theorem C2_chooseSnapshot_cases :
    (∀ d t, chooseSnapshot [d] t = .ok d) ∧
    (∀ (l : List Nat) d1 d2 t, d1 < d2 → (l = [d1, d2] ∨ l = [d2, d1]) →
      chooseSnapshot l t = .ok (if d2 ≤ t then d2 else d1)) ∧
    (∀ (l : List Nat) t, 3 ≤ l.length → (∃ d ∈ l, d ≤ t) →
      ∃ m, chooseSnapshot l t = .ok m ∧ m ∈ l ∧ m ≤ t ∧ ∀ d ∈ l, d ≤ t → d ≤ m) ∧
    (∀ t, chooseSnapshot [] t = .error "no snapshot dates") :=
  ⟨chooseSnapshot_one,
   fun l d1 d2 t h12 hl => chooseSnapshot_two l d1 d2 t h12 hl,
   fun l t h3 hex => chooseSnapshot_many l t h3 hex,
   fun _ => rfl⟩

theorem C2_chooseSnapshot_cases_witness :
    chooseSnapshot [5] 1 = .ok 5 ∧
    chooseSnapshot [10, 5] 9 = .ok 5 ∧
    (∃ m, chooseSnapshot [5, 10, 20] 15 = .ok m ∧ m ∈ [5, 10, 20] ∧ m ≤ 15 ∧
      ∀ d ∈ [5, 10, 20], d ≤ 15 → d ≤ m) ∧
    chooseSnapshot [] 3 = .error "no snapshot dates" := by
  refine ⟨C2_chooseSnapshot_cases.1 5 1, ?_, ?_, C2_chooseSnapshot_cases.2.2.2 3⟩
  · have := C2_chooseSnapshot_cases.2.1 [10, 5] 5 10 9 (by omega) (Or.inr rfl)
    simpa using this
  · exact C2_chooseSnapshot_cases.2.2.1 [5, 10, 20] 15 (by simp) ⟨5, by simp, by omega⟩

/-- C3 as stated is false: with three dated snapshots `1 < 2 < 3` and a target
date `0` strictly before all of them, `choose_snapshot` raises (`max()` over an
empty sequence) instead of resolving to the earliest date `1`. -/
theorem C3_counterexample :
    chooseSnapshot [1, 2, 3] 0 = .error "max() arg is an empty sequence" ∧
      chooseSnapshot [1, 2, 3] 0 ≠ .ok 1 := by
  constructor
  · rfl
  · intro h; simp [chooseSnapshot, List.insertionSort, List.orderedInsert, pyMax] at h

/-- C3 amended: with three dated snapshots `d1 < d2 < d3`, a target `t` with
`d2 <= t < d3` resolves to `d2`, but a target strictly before `d1` raises an
error (`max()` over an empty sequence) — the earliest-available fallback
applies only to the one- and two-date cases. -/
theorem C3_three_snapshots (l : List Nat) (d1 d2 d3 t : Nat)
    (hperm : l.Perm [d1, d2, d3]) (h12 : d1 < d2) (h23 : d2 < d3) :
    (d2 ≤ t → t < d3 → chooseSnapshot l t = .ok d2) ∧
    (t < d1 → chooseSnapshot l t = .error "max() arg is an empty sequence") := by
  have hne : l ≠ [] := by
    intro h; subst h; have := hperm.length_eq; simp at this
  have hsortl : l.insertionSort (· ≤ ·) = [d1, d2, d3] := by
    apply insertionSort_eq_of_perm_sorted l _ hperm
    simp [List.sorted_cons]; omega
  constructor
  · intro h2t ht3
    unfold chooseSnapshot
    rw [if_neg (by simp [hne])]
    rw [hsortl]
    have hf : [d1, d2, d3].filter (fun d => d ≤ t) = [d1, d2] := by
      simp only [List.filter]
      rw [decide_eq_true (by omega : d1 ≤ t), decide_eq_true h2t,
        decide_eq_false (by omega : ¬d3 ≤ t)]
    simp only [hf, pyMax, List.foldl]
    have : Nat.max d1 d2 = d2 := Nat.max_eq_right (by omega)
    rw [this]
  · intro ht1
    unfold chooseSnapshot
    rw [if_neg (by simp [hne])]
    rw [hsortl]
    have hf : [d1, d2, d3].filter (fun d => d ≤ t) = [] := by
      simp only [List.filter]
      rw [decide_eq_false (by omega : ¬d1 ≤ t), decide_eq_false (by omega : ¬d2 ≤ t),
        decide_eq_false (by omega : ¬d3 ≤ t)]
    simp only [hf, pyMax]

theorem C3_three_snapshots_witness :
    (2 ≤ (2 : Nat) ∧ (2 : Nat) < 3 ∧ chooseSnapshot [1, 2, 3] 2 = .ok 2) ∧
    ((0 : Nat) < 1 ∧
      chooseSnapshot [1, 2, 3] 0 = .error "max() arg is an empty sequence") := by
  have h := C3_three_snapshots [1, 2, 3] 1 2 3 2 (List.Perm.refl _) (by omega) (by omega)
  have h' := C3_three_snapshots [1, 2, 3] 1 2 3 0 (List.Perm.refl _) (by omega) (by omega)
  exact ⟨⟨by omega, by omega, h.1 (by omega) (by omega)⟩, ⟨by omega, h'.2 (by omega)⟩⟩

/-! ### Association-list lemmas -/

theorem pyLookup_pyInsert {α β : Type} [DecidableEq α] (d : List (α × β)) (k k' : α)
    (v : β) :
    pyLookup (pyInsert k v d) k' = if k = k' then some v else pyLookup d k' := by
  induction d with
  | nil => simp [pyInsert, pyLookup]
  | cons p rest ih =>
    obtain ⟨k'', v''⟩ := p
    by_cases h1 : k'' = k <;> by_cases h2 : k = k' <;> by_cases h3 : k'' = k' <;>
      simp_all [pyInsert, pyLookup]

theorem mem_pyInsert {α β : Type} [DecidableEq α] (d : List (α × β)) (k : α) (v : β)
    (e : α × β) : e ∈ pyInsert k v d → e = (k, v) ∨ e ∈ d := by
  induction d with
  | nil => intro h; simp [pyInsert] at h; exact Or.inl h
  | cons p rest ih =>
    intro h
    simp only [pyInsert] at h
    by_cases h1 : p.1 = k
    · rw [if_pos h1] at h
      rcases List.mem_cons.mp h with h2 | h2
      · exact Or.inl h2
      · exact Or.inr (List.mem_cons_of_mem _ h2)
    · rw [if_neg h1] at h
      rcases List.mem_cons.mp h with h2 | h2
      · exact Or.inr (h2 ▸ List.mem_cons_self _ _)
      · rcases ih h2 with h3 | h3
        · exact Or.inl h3
        · exact Or.inr (List.mem_cons_of_mem _ h3)

theorem pyLookup_eq_some_mem {α β : Type} [DecidableEq α] (d : List (α × β)) (k : α)
    (v : β) : pyLookup d k = some v → (k, v) ∈ d := by
  induction d with
  | nil => intro h; simp [pyLookup] at h
  | cons p rest ih =>
    intro h
    simp only [pyLookup] at h
    by_cases h1 : p.1 = k
    · rw [if_pos h1] at h
      have : p = (k, v) := by
        obtain ⟨p1, p2⟩ := p; simp at h1; injection h with h; simp_all
      exact this ▸ List.mem_cons_self _ _
    · rw [if_neg h1] at h
      exact List.mem_cons_of_mem _ (ih h)

theorem pyLookup_isSome_of_mem {α β : Type} [DecidableEq α] (d : List (α × β)) (k : α)
    (v : β) : (k, v) ∈ d → (pyLookup d k).isSome := by
  induction d with
  | nil => intro h; simp at h
  | cons p rest ih =>
    intro h
    simp only [pyLookup]
    by_cases h1 : p.1 = k
    · rw [if_pos h1]; rfl
    · rw [if_neg h1]
      rcases List.mem_cons.mp h with h2 | h2
      · exact absurd (by rw [← h2]) h1
      · exact ih h2

theorem mem_foldl_pyInsert {α β : Type} [DecidableEq α] (l : List (α × β))
    (init : List (α × β)) (e : α × β) :
    e ∈ l.foldl (fun d p => pyInsert p.1 p.2 d) init → e ∈ init ∨ e ∈ l := by
  induction l generalizing init with
  | nil => intro h; exact Or.inl h
  | cons p rest ih =>
    intro h
    rcases ih _ h with h1 | h1
    · rcases mem_pyInsert _ _ _ _ h1 with h2 | h2
      · right; rw [h2]; exact List.mem_cons_self _ _
      · exact Or.inl h2
    · exact Or.inr (List.mem_cons_of_mem _ h1)

theorem pyDictOf_mem {α β : Type} [DecidableEq α] (l : List (α × β)) (e : α × β) :
    e ∈ pyDictOf l → e ∈ l := by
  intro h
  rcases mem_foldl_pyInsert l [] e h with h1 | h1
  · simp at h1
  · exact h1

theorem pyLookup_foldl_pyInsert_isSome {α β : Type} [DecidableEq α]
    (l : List (α × β)) (init : List (α × β)) (k : α) :
    (pyLookup (l.foldl (fun d p => pyInsert p.1 p.2 d) init) k).isSome ↔
      (pyLookup init k).isSome ∨ ∃ v, (k, v) ∈ l := by
  induction l generalizing init with
  | nil => simp
  | cons p rest ih =>
    rw [List.foldl_cons, ih]
    constructor
    · rintro (h | ⟨v, hv⟩)
      · rw [pyLookup_pyInsert] at h
        by_cases h1 : p.1 = k
        · exact Or.inr ⟨p.2, by rw [← h1]; exact List.mem_cons_self _ _⟩
        · rw [if_neg h1] at h; exact Or.inl h
      · exact Or.inr ⟨v, List.mem_cons_of_mem _ hv⟩
    · rintro (h | ⟨v, hv⟩)
      · left; rw [pyLookup_pyInsert]
        by_cases h1 : p.1 = k
        · rw [if_pos h1]; rfl
        · rw [if_neg h1]; exact h
      · rcases List.mem_cons.mp hv with h2 | h2
        · left; rw [pyLookup_pyInsert]
          have : p.1 = k := by rw [← h2]
          rw [if_pos this]; rfl
        · exact Or.inr ⟨v, h2⟩

theorem pyLookup_pyDictOf_isSome {α β : Type} [DecidableEq α] (l : List (α × β))
    (k : α) : (pyLookup (pyDictOf l) k).isSome ↔ ∃ v, (k, v) ∈ l := by
  rw [pyDictOf, pyLookup_foldl_pyInsert_isSome]
  simp [pyLookup]

theorem keysNodup_pyInsert {α β : Type} [DecidableEq α] (d : List (α × β)) (k : α)
    (v : β) (h : (d.map Prod.fst).Nodup) : ((pyInsert k v d).map Prod.fst).Nodup := by
  induction d with
  | nil => simp [pyInsert]
  | cons p rest ih =>
    simp only [pyInsert]
    by_cases h1 : p.1 = k
    · rw [if_pos h1]
      simp only [List.map_cons, List.nodup_cons] at h ⊢
      exact ⟨by rw [← h1]; exact h.1, h.2⟩
    · rw [if_neg h1]
      simp only [List.map_cons, List.nodup_cons] at h ⊢
      refine ⟨?_, ih h.2⟩
      intro hc
      have := List.mem_map.mp hc
      obtain ⟨e, he, hfst⟩ := this
      rcases mem_pyInsert _ _ _ _ he with h2 | h2
      · exact h1 (by rw [← hfst, h2])
      · exact h.1 (List.mem_map.mpr ⟨e, h2, hfst⟩)

theorem keysNodup_pyDictOf {α β : Type} [DecidableEq α] (l : List (α × β)) :
    ((pyDictOf l).map Prod.fst).Nodup := by
  have : ∀ (init : List (α × β)), (init.map Prod.fst).Nodup →
      ((l.foldl (fun d p => pyInsert p.1 p.2 d) init).map Prod.fst).Nodup := by
    induction l with
    | nil => intro init h; exact h
    | cons p rest ih => intro init h; exact ih _ (keysNodup_pyInsert _ _ _ h)
  exact this [] (by simp)

theorem pyLookup_of_mem_nodupKeys {α β : Type} [DecidableEq α] (d : List (α × β))
    (k : α) (v : β) (hnd : (d.map Prod.fst).Nodup) (hm : (k, v) ∈ d) :
    pyLookup d k = some v := by
  induction d with
  | nil => simp at hm
  | cons p rest ih =>
    simp only [List.map_cons, List.nodup_cons] at hnd
    rcases List.mem_cons.mp hm with h1 | h1
    · simp [pyLookup, ← h1]
    · have hk : p.1 ≠ k := by
        intro hc
        exact hnd.1 (List.mem_map.mpr ⟨(k, v), h1, hc.symm⟩)
      simp only [pyLookup, if_neg hk]
      exact ih hnd.2 h1

/-! ### Variant-map construction lemmas -/

theorem pyLookup_addVariant (vm : VariantMap) (v std key : String) :
    pyLookup (addVariant vm v std) key =
      if hasContent v ∧ norm v = key then some (v, std) else pyLookup vm key := by
  unfold addVariant
  by_cases h1 : hasContent v
  · rw [if_pos h1, pyLookup_pyInsert]
    by_cases h2 : norm v = key
    · rw [if_pos h2, if_pos ⟨h1, h2⟩]
    · rw [if_neg h2, if_neg (fun hc => h2 hc.2)]
  · rw [if_neg h1, if_neg (fun hc => h1 hc.1)]

theorem pyLookup_vmFold (pairs : List (String × String)) (init : VariantMap)
    (key : String) :
    pyLookup (vmFold init pairs) key =
      match lastWriter pairs key with
      | some p => some p
      | none => pyLookup init key := by
  induction pairs generalizing init with
  | nil => rfl
  | cons p rest ih =>
    show pyLookup (vmFold (addVariant init p.1 p.2) rest) key = _
    rw [ih]
    rcases hlw : lastWriter rest key with _ | q
    · show pyLookup (addVariant init p.1 p.2) key =
        (match lastWriter (p :: rest) key with
          | some p => some p
          | none => pyLookup init key)
      rw [pyLookup_addVariant]
      show _ = (match (match lastWriter rest key with
          | some q => some q
          | none => if hasContent p.1 && (norm p.1 == key) then some p else none) with
        | some p => some p
        | none => pyLookup init key)
      rw [hlw]
      by_cases hc : hasContent p.1 ∧ norm p.1 = key
      · rw [if_pos hc]
        have : (hasContent p.1 && (norm p.1 == key)) = true := by
          simp [hc.1, hc.2]
        rw [this]
        simp
      · rw [if_neg hc]
        have : (hasContent p.1 && (norm p.1 == key)) = false := by
          by_cases h1 : hasContent p.1
          · have h2 : norm p.1 ≠ key := fun hn => hc ⟨h1, hn⟩
            simp [h1, h2]
          · simp [h1]
        rw [this]
        simp
    · show some q = (match lastWriter (p :: rest) key with
        | some p => some p
        | none => pyLookup init key)
      show some q = (match (match lastWriter rest key with
          | some q => some q
          | none => if hasContent p.1 && (norm p.1 == key) then some p else none) with
        | some p => some p
        | none => pyLookup init key)
      rw [hlw]

theorem lastWriter_mem (pairs : List (String × String)) (key : String)
    (p : String × String) (h : lastWriter pairs key = some p) :
    p ∈ pairs ∧ hasContent p.1 ∧ norm p.1 = key := by
  induction pairs with
  | nil => simp [lastWriter] at h
  | cons q rest ih =>
    simp only [lastWriter] at h
    rcases hlw : lastWriter rest key with _ | r
    · rw [hlw] at h
      by_cases hc : (hasContent q.1 && (norm q.1 == key)) = true
      · rw [if_pos hc] at h
        injection h with h
        subst h
        simp only [Bool.and_eq_true, beq_iff_eq] at hc
        exact ⟨List.mem_cons_self _ _, hc.1, hc.2⟩
      · rw [if_neg hc] at h; exact absurd h (by simp)
    · rw [hlw] at h
      injection h with h
      subst h
      obtain ⟨hm, hc, hn⟩ := ih hlw
      exact ⟨List.mem_cons_of_mem _ hm, hc, hn⟩

theorem lastWriter_isSome_iff (pairs : List (String × String)) (key : String) :
    (lastWriter pairs key).isSome ↔ ∃ p ∈ pairs, hasContent p.1 ∧ norm p.1 = key := by
  induction pairs with
  | nil => simp [lastWriter]
  | cons q rest ih =>
    simp only [lastWriter]
    rcases hlw : lastWriter rest key with _ | r
    · rw [hlw] at ih
      constructor
      · intro h
        by_cases hc : (hasContent q.1 && (norm q.1 == key)) = true
        · simp only [Bool.and_eq_true, beq_iff_eq] at hc
          exact ⟨q, List.mem_cons_self _ _, hc.1, hc.2⟩
        · rw [if_neg hc] at h; simp at h
      · intro ⟨p, hp, hc, hn⟩
        rcases List.mem_cons.mp hp with h1 | h1
        · subst h1
          rw [if_pos (by simp [hc, hn])]
          rfl
        · exact absurd (ih.mpr ⟨p, h1, hc, hn⟩) (by simp)
    · rw [hlw] at ih
      simp only [Option.isSome_some, true_iff] at ih
      obtain ⟨p, hp, hc, hn⟩ := ih
      simp only [Option.isSome_some, true_iff]
      exact ⟨p, List.mem_cons_of_mem _ hp, hc, hn⟩

theorem vmFold_entry (pairs : List (String × String)) (init : VariantMap)
    (e : String × String × String) (h : e ∈ vmFold init pairs) :
    e ∈ init ∨ (e.1 = norm e.2.1 ∧ hasContent e.2.1 ∧ (e.2.1, e.2.2) ∈ pairs) := by
  induction pairs generalizing init with
  | nil => exact Or.inl h
  | cons p rest ih =>
    have h' : e ∈ vmFold (addVariant init p.1 p.2) rest := h
    rcases ih _ h' with h1 | h1
    · unfold addVariant at h1
      by_cases hc : hasContent p.1
      · rw [if_pos hc] at h1
        rcases mem_pyInsert _ _ _ _ h1 with h2 | h2
        · right
          rw [h2]
          exact ⟨rfl, hc, List.mem_cons_self _ _⟩
        · exact Or.inl h2
      · rw [if_neg hc] at h1; exact Or.inl h1
    · exact Or.inr ⟨h1.1, h1.2.1, List.mem_cons_of_mem _ h1.2.2⟩

theorem vmFold_append (init : VariantMap) (l1 l2 : List (String × String)) :
    vmFold init (l1 ++ l2) = vmFold (vmFold init l1) l2 := by
  simp [vmFold, List.foldl_append]

theorem addVariants_eq_vmFold (vm : VariantMap) (std : String) (vs : List String) :
    addVariants vm std vs = vmFold vm (vs.map (fun v => (v, std))) := by
  simp [addVariants, vmFold, List.foldl_map]

theorem foldl_vmFold_flatMap {γ : Type} (l : List γ) (h : γ → List (String × String))
    (init : VariantMap) :
    l.foldl (fun vm p => vmFold vm (h p)) init = vmFold init (l.flatMap h) := by
  induction l generalizing init with
  | nil => rfl
  | cons p rest ih =>
    rw [List.foldl_cons, List.flatMap_cons, vmFold_append]
    exact ih _

theorem foldl_prod_fst {α β γ : Type} (l : List γ) (f : α → γ → α) (g : α × β → γ → β)
    (a : α) (b : β) :
    (l.foldl (fun acc p => (f acc.1 p, g acc p)) (a, b)).1 = l.foldl f a := by
  induction l generalizing a b with
  | nil => rfl
  | cons p rest ih => exact ih _ _

theorem foldl_prod_snd {α β γ : Type} (l : List γ) (f : α → γ → α) (g : β → γ → β)
    (a : α) (b : β) :
    (l.foldl (fun acc p => (f acc.1 p, g acc.2 p)) (a, b)).2 = l.foldl g b := by
  induction l generalizing a b with
  | nil => rfl
  | cons p rest ih => exact ih _ _

/-! ### `buildVocab` structure lemmas -/

theorem snapFold_fst (cm : CanonMap) (acc : VariantMap × List String) :
    (cm.foldl (fun acc p =>
      let items := acc.2 ++ [p.1]
      let vm := addVariants acc.1 p.1 p.2
      (addVariant vm p.1 p.1, items)) acc).1 =
    vmFold acc.1 (cm.flatMap (fun p => p.2.map (fun v => (v, p.1)) ++ [(p.1, p.1)])) := by
  induction cm generalizing acc with
  | nil => rfl
  | cons p rest ih =>
    rw [List.foldl_cons, ih, List.flatMap_cons, vmFold_append]
    show vmFold (addVariant (addVariants acc.1 p.1 p.2) p.1 p.1) _ = _
    congr 1
    rw [vmFold_append, ← addVariants_eq_vmFold]
    rfl

theorem timelessFold_fst (tl : CanonMap) (acc : VariantMap × List String) :
    (tl.foldl (fun acc p =>
      let items := if p.1 ∈ acc.2 then acc.2 else acc.2 ++ [p.1]
      let vm := addVariants acc.1 p.1 p.2
      (addVariant vm p.1 p.1, items)) acc).1 =
    vmFold acc.1 (tl.flatMap (fun p => p.2.map (fun v => (v, p.1)) ++ [(p.1, p.1)])) := by
  induction tl generalizing acc with
  | nil => rfl
  | cons p rest ih =>
    rw [List.foldl_cons, ih, List.flatMap_cons, vmFold_append]
    show vmFold (addVariant (addVariants acc.1 p.1 p.2) p.1 p.1) _ = _
    congr 1
    rw [vmFold_append, ← addVariants_eq_vmFold]
    rfl

theorem buildVocab_fst (snapCanon : Option CanonMap) (timeless : CanonMap) :
    (buildVocab snapCanon timeless).1 = vmFold [] (vocabPairs snapCanon timeless) := by
  cases snapCanon with
  | none =>
    show (timeless.foldl _ ([], [])).1 = _
    rw [timelessFold_fst]
    rfl
  | some cm =>
    show (timeless.foldl _ (cm.foldl _ ([], []))).1 = _
    have hsnap := snapFold_fst cm ([], [])
    have htl := timelessFold_fst timeless (cm.foldl (fun acc p =>
      let items := acc.2 ++ [p.1]
      let vm := addVariants acc.1 p.1 p.2
      (addVariant vm p.1 p.1, items)) ([], []))
    rw [htl, hsnap]
    show vmFold (vmFold [] _) _ = _
    rw [← vmFold_append]
    rfl

theorem snapFold_snd (cm : CanonMap) (acc : VariantMap × List String) :
    (cm.foldl (fun acc p =>
      let items := acc.2 ++ [p.1]
      let vm := addVariants acc.1 p.1 p.2
      (addVariant vm p.1 p.1, items)) acc).2 = acc.2 ++ cm.map (·.1) := by
  induction cm generalizing acc with
  | nil => simp
  | cons p rest ih =>
    rw [List.foldl_cons, ih]
    simp

theorem timelessFold_snd_mem (tl : CanonMap) (acc : VariantMap × List String)
    (c : String) :
    c ∈ (tl.foldl (fun acc p =>
      let items := if p.1 ∈ acc.2 then acc.2 else acc.2 ++ [p.1]
      let vm := addVariants acc.1 p.1 p.2
      (addVariant vm p.1 p.1, items)) acc).2 → c ∈ acc.2 ∨ c ∈ tl.map (·.1) := by
  induction tl generalizing acc with
  | nil => intro h; exact Or.inl h
  | cons p rest ih =>
    intro h
    rw [List.foldl_cons] at h
    rcases ih _ h with h1 | h1
    · by_cases h2 : p.1 ∈ acc.2
      · simp only [if_pos h2] at h1; exact Or.inl h1
      · simp only [if_neg h2] at h1
        rcases List.mem_append.mp h1 with h3 | h3
        · exact Or.inl h3
        · right
          simp at h3
          rw [h3]
          exact List.mem_map.mpr ⟨p, List.mem_cons_self _ _, rfl⟩
    · right
      rcases List.mem_map.mp h1 with ⟨q, hq, hfst⟩
      exact List.mem_map.mpr ⟨q, List.mem_cons_of_mem _ hq, hfst⟩

theorem buildVocab_items_mem (snapCanon : Option CanonMap) (timeless : CanonMap)
    (c : String) (h : c ∈ (buildVocab snapCanon timeless).2) :
    (c, c) ∈ vocabPairs snapCanon timeless ∧ c ≠ "" := by
  have keyPair : ∀ (cm : CanonMap), c ∈ cm.map (·.1) →
      (c, c) ∈ cm.flatMap (fun p => p.2.map (fun v => (v, p.1)) ++ [(p.1, p.1)]) := by
    intro cm hc
    rcases List.mem_map.mp hc with ⟨p, hp, hfst⟩
    exact List.mem_flatMap.mpr ⟨p, hp,
      List.mem_append.mpr (Or.inr (by rw [← hfst]; exact List.mem_singleton.mpr rfl))⟩
  cases snapCanon with
  | none =>
    have h' : c ∈ (timeless.foldl _ (([], []) : VariantMap × List String)).2 ∧
        (c != "") = true := List.mem_filter.mp h
    have hne : c ≠ "" := by simpa using h'.2
    rcases timelessFold_snd_mem timeless ([], []) c h'.1 with h1 | h1
    · simp at h1
    · exact ⟨List.mem_append.mpr (Or.inr (keyPair timeless h1)), hne⟩
  | some cm =>
    have h' : c ∈ (timeless.foldl _ (cm.foldl _ (([], []) : VariantMap × List String))).2 ∧
        (c != "") = true := List.mem_filter.mp h
    have hne : c ≠ "" := by simpa using h'.2
    rcases timelessFold_snd_mem timeless _ c h'.1 with h1 | h1
    · rw [snapFold_snd] at h1
      simp only [List.nil_append] at h1
      exact ⟨List.mem_append.mpr (Or.inl (keyPair cm h1)), hne⟩
    · exact ⟨List.mem_append.mpr (Or.inr (keyPair timeless h1)), hne⟩

/-! ### C4: the Exact Matcher -/

/-- C4: a raw header exact-matches (its normalized form is a key of
`variant_map`) iff its normalized form equals the normalized form of some
variant of the resolved vocabulary — each canonical name counted as a variant
of itself — provided every vocabulary entry has at least one non-whitespace
character (blank entries are skipped by `_add_variant`); and a matched header
records the company variant and the canonical it belongs to. -/
theorem C4_exact_match_iff (snapCanon : Option CanonMap) (timeless : CanonMap)
    (hwf : ∀ p ∈ vocabPairs snapCanon timeless, hasContent p.1 = true) (raw : String) :
    ((pyLookup (buildVocab snapCanon timeless).1 (norm raw)).isSome ↔
      ∃ p ∈ vocabPairs snapCanon timeless, norm raw = norm p.1) ∧
    (∀ cv std, pyLookup (buildVocab snapCanon timeless).1 (norm raw) = some (cv, std) →
      (cv, std) ∈ vocabPairs snapCanon timeless ∧ norm cv = norm raw) := by
  rw [buildVocab_fst, pyLookup_vmFold]
  constructor
  · rcases hlw : lastWriter (vocabPairs snapCanon timeless) (norm raw) with _ | p
    · constructor
      · intro h; simp [pyLookup] at h
      · intro ⟨p, hp, hn⟩
        have : (lastWriter (vocabPairs snapCanon timeless) (norm raw)).isSome :=
          (lastWriter_isSome_iff _ _).mpr ⟨p, hp, hwf p hp, hn.symm⟩
        rw [hlw] at this
        simp at this
    · constructor
      · intro _
        obtain ⟨hm, _, hn⟩ := lastWriter_mem _ _ _ hlw
        exact ⟨p, hm, hn.symm⟩
      · intro _; simp
  · intro cv std h
    rcases hlw : lastWriter (vocabPairs snapCanon timeless) (norm raw) with _ | p
    · rw [hlw] at h; simp [pyLookup] at h
    · rw [hlw] at h
      injection h with h
      obtain ⟨hm, _, hn⟩ := lastWriter_mem _ _ _ hlw
      constructor
      · rw [← h]; exact hm
      · have hcv : p.1 = cv := by rw [h]
        rw [← hcv]; exact hn

theorem C4_exact_match_iff_witness :
    (∀ p ∈ vocabPairs none [("Revenue", ["Total Revenue"])], hasContent p.1 = true) ∧
    (pyLookup (buildVocab none [("Revenue", ["Total Revenue"])]).1
        (norm "total-REVENUE")).isSome = true ∧
    pyLookup (buildVocab none [("Revenue", ["Total Revenue"])]).1
        (norm "total-REVENUE") = some ("Total Revenue", "Revenue") := by
  refine ⟨by decide, ?_, by decide⟩
  have h := (C4_exact_match_iff none [("Revenue", ["Total Revenue"])] (by decide)
    "total-REVENUE").1
  exact h.mpr ⟨("Total Revenue", "Revenue"), by decide, by decide⟩

/-! ### C9: LLM output containment -/

/-- C9: under the §6 boundary contract (the decoded response respects the
enum schema built from `valid_raws + ["NONE", "AMBIG"]`), every value
`map_canonical_to_raw` returns for a canonical item that is not one of the
sentinels is a member of the raw-header candidate list supplied in that same
call. -/
theorem C9_llm_output_containment (canonicalItems rawHeaders : List String)
    (resp : LLMResp)
    (hc : ∀ arr, resp = some arr → respHonorsSchema canonicalItems rawHeaders arr)
    (c v : String)
    (hv : pyLookup (mapCanonicalToRaw canonicalItems rawHeaders resp) c = some v)
    (hs : v ∉ sentinels) : v ∈ rawHeaders := by
  cases resp with
  | none =>
    have hm := pyDictOf_mem _ _ (pyLookup_eq_some_mem _ _ _ hv)
    rcases List.mem_map.mp hm with ⟨c', _, heq⟩
    have hvE : v = "LLM_ERROR" := by
      have := congrArg Prod.snd heq
      simpa using this.symm
    exact absurd (by rw [hvE]; simp [sentinels]) hs
  | some arr =>
    have hm := pyDictOf_mem _ _ (pyLookup_eq_some_mem _ _ _ hv)
    have hschema := (hc arr rfl) (c, v) hm
    rcases List.mem_append.mp hschema.2 with h1 | h1
    · exact List.mem_of_mem_filter h1
    · exfalso
      apply hs
      have h2 : v ∈ ["NONE", "AMBIG"] := h1
      rcases List.mem_cons.mp h2 with h3 | h3
      · rw [h3]; simp [sentinels]
      · rcases List.mem_cons.mp h3 with h4 | h4
        · rw [h4]; simp [sentinels]
        · simp at h4

theorem C9_llm_output_containment_witness : "Cash" ∈ ["Cash"] := by
  refine C9_llm_output_containment ["Revenue"] ["Cash"] (some [("Revenue", "Cash")])
    ?_ "Revenue" "Cash" (by decide) (by decide)
  intro arr h
  injection h with h
  subst h
  intro p hp
  rw [List.mem_singleton] at hp
  subst hp
  exact ⟨by decide, by decide⟩

/-! ### `llmStep` / `llmLoop` lemmas -/

theorem llmStep_sentinel_eq (ctx : SliceCtx) (vm : VariantMap)
    (llmRes : List (String × String)) (acc : List String × PassState)
    (c cv std : String)
    (hrm : (pyLookup llmRes c).getD "LLM_ERROR" ∈ sentinels)
    (hvm : pyLookup vm (norm c) = some (cv, std)) :
    llmStep ctx vm llmRes acc c = .ok (acc.1,
      { acc.2 with auditRows := acc.2.auditRows ++
          [sentinelRow ctx c std ((pyLookup llmRes c).getD "LLM_ERROR")] }) := by
  simp only [llmStep, hvm]
  rw [if_pos hrm]

theorem llmStep_ok_of_registered (ctx : SliceCtx) (vm : VariantMap)
    (llmRes : List (String × String)) (acc : List String × PassState) (c : String)
    (h : (pyLookup vm (norm c)).isSome) :
    ∃ acc', llmStep ctx vm llmRes acc c = .ok acc' := by
  rcases hvm : pyLookup vm (norm c) with _ | ⟨cv, std⟩
  · rw [hvm] at h; simp at h
  · by_cases hsent : (pyLookup llmRes c).getD "LLM_ERROR" ∈ sentinels
    · exact ⟨_, llmStep_sentinel_eq ctx vm llmRes acc c cv std hsent hvm⟩
    · simp only [llmStep, hvm]
      rw [if_neg hsent]
      by_cases hseen : mkKey ((pyLookup llmRes c).getD "LLM_ERROR")
          ctx.snapshotDate ctx.key ∈ acc.2.seen <;>
        [rw [if_pos hseen]; rw [if_neg hseen]] <;>
        (by_cases hp : simPass c ((pyLookup llmRes c).getD "LLM_ERROR") = true <;>
          [rw [if_pos hp]; rw [if_neg hp]] <;> exact ⟨_, rfl⟩)

theorem llmStep_mono (ctx : SliceCtx) (vm : VariantMap)
    (llmRes : List (String × String)) (acc acc' : List String × PassState)
    (c : String) (h : llmStep ctx vm llmRes acc c = .ok acc') :
    (∃ t, acc'.2.mapRows = acc.2.mapRows ++ t) ∧
    (∃ t, acc'.2.auditRows = acc.2.auditRows ++ t) ∧
    (∀ key ∈ acc.2.seen, key ∈ acc'.2.seen) ∧ (∀ x ∈ acc.1, x ∈ acc'.1) := by
  simp only [llmStep] at h
  split at h
  · split at h
    · exact absurd h (by simp)
    · injection h with h
      subst h
      exact ⟨⟨[], by simp⟩, ⟨_, rfl⟩, fun key hk => hk, fun x hx => hx⟩
  · split at h
    · split at h
      · injection h with h
        subst h
        exact ⟨⟨[], by simp⟩, ⟨[], by simp⟩, fun key hk => hk,
          fun x hx => List.mem_cons_of_mem _ hx⟩
      · split at h
        · exact absurd h (by simp)
        · injection h with h
          subst h
          exact ⟨⟨[], by simp⟩, ⟨_, rfl⟩, fun key hk => hk,
            fun x hx => List.mem_cons_of_mem _ hx⟩
    · split at h
      · exact absurd h (by simp)
      · split at h
        · injection h with h
          subst h
          exact ⟨⟨_, rfl⟩, ⟨[], by simp⟩, fun key hk => List.mem_cons_of_mem _ hk,
            fun x hx => List.mem_cons_of_mem _ hx⟩
        · injection h with h
          subst h
          exact ⟨⟨_, rfl⟩, ⟨_, rfl⟩, fun key hk => List.mem_cons_of_mem _ hk,
            fun x hx => List.mem_cons_of_mem _ hx⟩

theorem llmLoop_ok_of_registered (ctx : SliceCtx) (vm : VariantMap)
    (llmRes : List (String × String)) (items : List String)
    (acc : List String × PassState)
    (hreg : ∀ c ∈ items, (pyLookup vm (norm c)).isSome) :
    ∃ acc', llmLoop ctx vm llmRes items acc = .ok acc' := by
  induction items generalizing acc with
  | nil => exact ⟨acc, rfl⟩
  | cons c rest ih =>
    obtain ⟨acc1, hstep⟩ := llmStep_ok_of_registered ctx vm llmRes acc c
      (hreg c (List.mem_cons_self _ _))
    obtain ⟨acc', hloop⟩ := ih acc1 (fun c' hc' => hreg c' (List.mem_cons_of_mem _ hc'))
    refine ⟨acc', ?_⟩
    simp only [llmLoop, hstep]
    exact hloop

theorem llmLoop_mono (ctx : SliceCtx) (vm : VariantMap)
    (llmRes : List (String × String)) (items : List String)
    (acc acc' : List String × PassState)
    (h : llmLoop ctx vm llmRes items acc = .ok acc') :
    (∃ t, acc'.2.mapRows = acc.2.mapRows ++ t) ∧
    (∃ t, acc'.2.auditRows = acc.2.auditRows ++ t) ∧
    (∀ key ∈ acc.2.seen, key ∈ acc'.2.seen) ∧ (∀ x ∈ acc.1, x ∈ acc'.1) := by
  induction items generalizing acc with
  | nil =>
    simp only [llmLoop] at h
    injection h with h
    subst h
    exact ⟨⟨[], by simp⟩, ⟨[], by simp⟩, fun key hk => hk, fun x hx => hx⟩
  | cons c rest ih =>
    simp only [llmLoop] at h
    rcases hstep : llmStep ctx vm llmRes acc c with e | acc1
    · rw [hstep] at h; exact absurd h (by simp)
    · rw [hstep] at h
      obtain ⟨⟨t1, ht1⟩, ⟨t2, ht2⟩, hseen, hmapped⟩ := llmStep_mono _ _ _ _ _ _ hstep
      obtain ⟨⟨u1, hu1⟩, ⟨u2, hu2⟩, hseen', hmapped'⟩ := ih acc1 h
      exact ⟨⟨t1 ++ u1, by rw [hu1, ht1, List.append_assoc]⟩,
        ⟨t2 ++ u2, by rw [hu2, ht2, List.append_assoc]⟩,
        fun key hk => hseen' key (hseen key hk),
        fun x hx => hmapped' x (hmapped x hx)⟩

theorem llmLoop_sentinel_audit (ctx : SliceCtx) (vm : VariantMap)
    (llmRes : List (String × String)) (items : List String)
    (acc : List String × PassState)
    (hreg : ∀ c' ∈ items, (pyLookup vm (norm c')).isSome)
    (c : String) (hc : c ∈ items)
    (hrm : (pyLookup llmRes c).getD "LLM_ERROR" ∈ sentinels) :
    ∃ acc', llmLoop ctx vm llmRes items acc = .ok acc' ∧
      ∃ row ∈ acc'.2.auditRows, row.companyLineItem = some c ∧
        row.status = (pyLookup llmRes c).getD "LLM_ERROR" := by
  induction items generalizing acc with
  | nil => simp at hc
  | cons c0 rest ih =>
    rcases List.mem_cons.mp hc with rfl | hcrest
    · rcases hvm : pyLookup vm (norm c) with _ | ⟨cv, std⟩
      · have := hreg c (List.mem_cons_self _ _)
        rw [hvm] at this; simp at this
      · have hstep := llmStep_sentinel_eq ctx vm llmRes acc c cv std hrm hvm
        obtain ⟨acc', hloop⟩ := llmLoop_ok_of_registered ctx vm llmRes rest _
          (fun c' hc' => hreg c' (List.mem_cons_of_mem _ hc'))
        refine ⟨acc', ?_, ?_⟩
        · simp only [llmLoop, hstep]
          exact hloop
        · obtain ⟨_, ⟨t2, ht2⟩, _, _⟩ := llmLoop_mono _ _ _ _ _ _ hloop
          refine ⟨sentinelRow ctx c std ((pyLookup llmRes c).getD "LLM_ERROR"),
            ?_, rfl, rfl⟩
          rw [ht2]
          apply List.mem_append.mpr
          left
          simp
    · obtain ⟨acc1, hstep⟩ := llmStep_ok_of_registered ctx vm llmRes acc c0
        (hreg c0 (List.mem_cons_self _ _))
      obtain ⟨acc', hloop, row, hrow, hcomp, hstat⟩ := ih acc1
        (fun c' hc' => hreg c' (List.mem_cons_of_mem _ hc')) hcrest
      refine ⟨acc', ?_, row, hrow, hcomp, hstat⟩
      simp only [llmLoop, hstep]
      exact hloop

/-! ### C7: malformed LLM responses -/

/-- C7: when the response is unparseable, `map_canonical_to_raw` returns (not
raises) and maps every requested canonical item to `LLM_ERROR` (and nothing
else); subsequently every canonical item (registered in `variant_map`, which
C10 guarantees for non-blank canonicals) receives a `status = LLM_ERROR`
audit row from the LLM pass rather than being dropped. -/
theorem C7_llm_error_recovery :
    (∀ (canonicalItems rawHeaders : List String) (c : String), c ∈ canonicalItems →
      pyLookup (mapCanonicalToRaw canonicalItems rawHeaders none) c =
        some "LLM_ERROR") ∧
    (∀ (canonicalItems rawHeaders : List String) (c v : String),
      pyLookup (mapCanonicalToRaw canonicalItems rawHeaders none) c = some v →
      v = "LLM_ERROR") ∧
    (∀ (ctx : SliceCtx) (vm : VariantMap) (items rawHeaders : List String)
      (acc : List String × PassState),
      (∀ c ∈ items, (pyLookup vm (norm c)).isSome) → ∀ c ∈ items,
      ∃ acc', llmLoop ctx vm (mapCanonicalToRaw items rawHeaders none) items acc =
          .ok acc' ∧
        ∃ row ∈ acc'.2.auditRows, row.companyLineItem = some c ∧
          row.status = "LLM_ERROR") := by
  have hval : ∀ (canonicalItems rawHeaders : List String) (c v : String),
      pyLookup (mapCanonicalToRaw canonicalItems rawHeaders none) c = some v →
      v = "LLM_ERROR" := by
    intro cs rs c v hv
    have hm := pyDictOf_mem _ _ (pyLookup_eq_some_mem _ _ _ hv)
    rcases List.mem_map.mp hm with ⟨c', _, heq⟩
    have := congrArg Prod.snd heq
    simpa using this.symm
  have hsome : ∀ (canonicalItems rawHeaders : List String) (c : String),
      c ∈ canonicalItems →
      pyLookup (mapCanonicalToRaw canonicalItems rawHeaders none) c =
        some "LLM_ERROR" := by
    intro cs rs c hc
    have hiss : (pyLookup (mapCanonicalToRaw cs rs none) c).isSome := by
      apply (pyLookup_pyDictOf_isSome _ _).mpr
      exact ⟨"LLM_ERROR", List.mem_map.mpr ⟨c, hc, rfl⟩⟩
    rcases hv : pyLookup (mapCanonicalToRaw cs rs none) c with _ | v
    · rw [hv] at hiss; simp at hiss
    · rw [hval cs rs c v hv]
  refine ⟨hsome, hval, ?_⟩
  intro ctx vm items rs acc hreg c hc
  have hrm : (pyLookup (mapCanonicalToRaw items rs none) c).getD "LLM_ERROR" ∈
      sentinels := by
    rw [hsome items rs c hc]
    simp [sentinels]
  obtain ⟨acc', hloop, row, hrow, hcomp, hstat⟩ :=
    llmLoop_sentinel_audit ctx vm _ items acc hreg c hc hrm
  refine ⟨acc', hloop, row, hrow, hcomp, ?_⟩
  rw [hstat, hsome items rs c hc]
  rfl

theorem C7_llm_error_recovery_witness :
    pyLookup (mapCanonicalToRaw ["Revenue"] ["Cash"] none) "Revenue" =
      some "LLM_ERROR" ∧
    ∃ acc', llmLoop ⟨"r", "S", "a.csv", ⟨0, "", "", ""⟩, none⟩
        (buildVocab none [("Revenue", [])]).1
        (mapCanonicalToRaw ["Revenue"] ["Cash"] none) ["Revenue"] ([], initState) =
        .ok acc' ∧
      ∃ row ∈ acc'.2.auditRows, row.companyLineItem = some "Revenue" ∧
        row.status = "LLM_ERROR" := by
  refine ⟨C7_llm_error_recovery.1 ["Revenue"] ["Cash"] "Revenue" (by decide), ?_⟩
  exact C7_llm_error_recovery.2.2 ⟨"r", "S", "a.csv", ⟨0, "", "", ""⟩, none⟩
    (buildVocab none [("Revenue", [])]).1 ["Revenue"] ["Cash"] ([], initState)
    (by decide) "Revenue" (by decide)

/-! ### C10: canonical self-registration and the `KeyError` edge -/

theorem emLoop_ok (ctx : SliceCtx) (vm : VariantMap) (ms : List String)
    (st : PassState) (h : ∀ m ∈ ms, (pyLookup vm (norm m)).isSome) :
    ∃ st', emLoop ctx vm ms st = .ok st' := by
  induction ms generalizing st with
  | nil => exact ⟨st, rfl⟩
  | cons m rest ih =>
    rcases hvm : pyLookup vm (norm m) with _ | ⟨cv, std⟩
    · have := h m (List.mem_cons_self _ _)
      rw [hvm] at this; simp at this
    · obtain ⟨st', hst'⟩ := ih _ (fun m' hm' => h m' (List.mem_cons_of_mem _ hm'))
      refine ⟨st', ?_⟩
      simp only [emLoop, hvm]
      exact hst'

theorem buildVocab_canonical_registered (snapCanon : Option CanonMap)
    (timeless : CanonMap)
    (hwf : ∀ c ∈ (buildVocab snapCanon timeless).2, hasContent c = true) :
    ∀ c ∈ (buildVocab snapCanon timeless).2,
      (pyLookup (buildVocab snapCanon timeless).1 (norm c)).isSome := by
  intro c hc
  obtain ⟨hpair, _⟩ := buildVocab_items_mem snapCanon timeless c hc
  rw [buildVocab_fst, pyLookup_vmFold]
  have : (lastWriter (vocabPairs snapCanon timeless) (norm c)).isSome :=
    (lastWriter_isSome_iff _ _).mpr ⟨(c, c), hpair, hwf c hc, rfl⟩
  rcases hlw : lastWriter (vocabPairs snapCanon timeless) (norm c) with _ | p
  · rw [hlw] at this; simp at this
  · simp

theorem buildVocab_value_registered (snapCanon : Option CanonMap)
    (timeless : CanonMap) (p : String × String × String)
    (hp : p ∈ (buildVocab snapCanon timeless).1) :
    (pyLookup (buildVocab snapCanon timeless).1 (norm p.2.1)).isSome := by
  rw [buildVocab_fst] at hp ⊢
  rcases vmFold_entry _ _ _ hp with h1 | ⟨_, hcont, hmem⟩
  · simp at h1
  · rw [pyLookup_vmFold]
    have : (lastWriter (vocabPairs snapCanon timeless) (norm p.2.1)).isSome :=
      (lastWriter_isSome_iff _ _).mpr ⟨(p.2.1, p.2.2), hmem, hcont, rfl⟩
    rcases hlw : lastWriter (vocabPairs snapCanon timeless) (norm p.2.1) with _ | q
    · rw [hlw] at this; simp at this
    · simp

theorem expectedMissingPass_ok (snapCanon : Option CanonMap) (timeless : CanonMap)
    (ctx : SliceCtx) (mapped : List String) (st : PassState) :
    ∃ st', expectedMissingPass ctx (buildVocab snapCanon timeless).1 mapped st =
      .ok st' := by
  apply emLoop_ok
  intro m hm
  have hm' : m ∈ ((buildVocab snapCanon timeless).1).map (fun p => p.2.1) :=
    List.mem_of_mem_filter hm
  rcases List.mem_map.mp hm' with ⟨p, hp, hfst⟩
  rw [← hfst]
  exact buildVocab_value_registered snapCanon timeless p hp

/-- C10: when every canonical item loaded for the company has at least one
non-whitespace character, all unguarded `variant_map[norm(canonical)]`
lookups succeed — each canonical being registered as a variant of itself —
so the LLM result loop and the `EXPECTED_MISSING` pass always complete
(`EXPECTED_MISSING` lookups succeed unconditionally, since they resolve
current values of `variant_map`); yet a whitespace-only canonical name
passes the `canonical_items` filter while never being registered, making
the `KeyError` branch reachable, as the concrete slice in the last
conjunct shows. -/
theorem C10_canonical_self_registration :
    (∀ (snapCanon : Option CanonMap) (timeless : CanonMap),
      (∀ c ∈ (buildVocab snapCanon timeless).2, hasContent c = true) →
      ∀ c ∈ (buildVocab snapCanon timeless).2,
        (pyLookup (buildVocab snapCanon timeless).1 (norm c)).isSome) ∧
    (∀ (snapCanon : Option CanonMap) (timeless : CanonMap)
      (p : String × String × String), p ∈ (buildVocab snapCanon timeless).1 →
      (pyLookup (buildVocab snapCanon timeless).1 (norm p.2.1)).isSome) ∧
    (∀ (snapCanon : Option CanonMap) (timeless : CanonMap) (ctx : SliceCtx)
      (llmRes : List (String × String)) (acc : List String × PassState),
      (∀ c ∈ (buildVocab snapCanon timeless).2, hasContent c = true) →
      ∃ acc', llmLoop ctx (buildVocab snapCanon timeless).1 llmRes
        (buildVocab snapCanon timeless).2 acc = .ok acc') ∧
    (∀ (snapCanon : Option CanonMap) (timeless : CanonMap) (ctx : SliceCtx)
      (mapped : List String) (st : PassState),
      ∃ st', expectedMissingPass ctx (buildVocab snapCanon timeless).1 mapped st =
        .ok st') ∧
    (" " ∈ (buildVocab none [(" ", [])]).2 ∧
      pyLookup (buildVocab none [(" ", [])]).1 (norm " ") = none ∧
      handleSlice "r" "S" [] [(" ", [])] (fun _ _ => none) initState ⟨0, "", "", ""⟩
        ⟨"c.csv", []⟩ = .error "KeyError: variant_map") :=
  ⟨buildVocab_canonical_registered,
   buildVocab_value_registered,
   fun snapCanon timeless ctx llmRes acc hwf =>
     llmLoop_ok_of_registered ctx _ llmRes _ acc
       (buildVocab_canonical_registered snapCanon timeless hwf),
   fun snapCanon timeless ctx mapped st =>
     expectedMissingPass_ok snapCanon timeless ctx mapped st,
   by decide, by decide, rfl⟩

theorem C10_canonical_self_registration_witness :
    (∀ c ∈ (buildVocab none [("Revenue", [" Total Revenue"])]).2, hasContent c = true) ∧
    (pyLookup (buildVocab none [("Revenue", [" Total Revenue"])]).1
      (norm "Revenue")).isSome = true := by
  refine ⟨by decide, ?_⟩
  exact C10_canonical_self_registration.1 none [("Revenue", [" Total Revenue"])]
    (by decide) "Revenue" (by decide)

/-! ### C5: what the LLM pass is handed -/

/-- C5 as stated is false: in a slice whose raw header `"Total Revenue"` is
exact-matched by the lookup vocabulary, the argument pair that `handle_slice`
passes to `map_canonical_to_raw` still contains `"Total Revenue"` — matched
headers are not removed from the candidate list. -/
theorem C5_counterexample :
    (pyLookup (buildVocab none [("Revenue", ["Total Revenue"])]).1
      (norm "Total Revenue")).isSome = true ∧
    llmCallArgs [] [("Revenue", ["Total Revenue"])] ⟨100, "Q1", "Q", "G"⟩
        ⟨"a.csv", ["Total Revenue", "COGS"]⟩ =
      .ok (["Revenue"], ["Total Revenue", "COGS"]) ∧
    "Total Revenue" ∈ ["Total Revenue", "COGS"] := by
  refine ⟨by decide, rfl, by decide⟩

/-- C5 amended: exact matching does complete before the LLM pass within a
slice, but matched raw headers are not removed from the candidate set:
`map_canonical_to_raw` receives the slice's full raw-header list (and the
full canonical list), and that pair is the only point where `handle_slice`
consults the LLM service (two oracles agreeing there produce identical slice
results). -/
theorem C5_llm_receives_full_headers :
    (∀ (dated : List (Nat × CanonMap)) (timeless : CanonMap) (k : SliceKey)
      (d : SliceData) (out : List String × List String),
      llmCallArgs dated timeless k d = .ok out → out.2 = d.headers) ∧
    (∀ (run symbol : String) (dated : List (Nat × CanonMap)) (timeless : CanonMap)
      (o1 o2 : Oracle) (st : PassState) (k : SliceKey) (d : SliceData),
      (∀ out, llmCallArgs dated timeless k d = .ok out →
        o1 out.1 out.2 = o2 out.1 out.2) →
      handleSlice run symbol dated timeless o1 st k d =
        handleSlice run symbol dated timeless o2 st k d) := by
  constructor
  · intro dated timeless k d out h
    simp only [llmCallArgs] at h
    rcases hde : dated.isEmpty with _ | _ <;> simp only [hde] at h
    · simp only [Bool.false_eq_true, if_false] at h
      rcases hcs : chooseSnapshot (dated.map (·.1)) k.reportDate with e | sd
      · simp only [hcs] at h
        exact absurd h (by simp)
      · simp only [hcs] at h
        rcases hlu : pyLookup dated sd with _ | cm
        · simp only [hlu] at h
          exact absurd h (by simp)
        · simp only [hlu] at h
          injection h with h; rw [← h]
    · simp only [if_true] at h
      injection h with h; rw [← h]
  · intro run symbol dated timeless o1 o2 st k d hagree
    rcases hde : dated.isEmpty with _ | _
    · simp only [handleSlice, hde, Bool.false_eq_true, if_false]
      rcases hcs : chooseSnapshot (dated.map (·.1)) k.reportDate with e | sd
      · simp only [hcs]
      · simp only [hcs]
        rcases hlu : pyLookup dated sd with _ | cm
        · simp only [hlu]
        · simp only [hlu]
          have hargs : llmCallArgs dated timeless k d =
              .ok ((buildVocab (some cm) timeless).2, d.headers) := by
            simp only [llmCallArgs, hde, Bool.false_eq_true, if_false, hcs, hlu]
          rw [hagree _ hargs]
    · simp only [handleSlice, hde, if_true]
      have hargs : llmCallArgs dated timeless k d =
          .ok ((buildVocab none timeless).2, d.headers) := by
        simp only [llmCallArgs, hde, if_true]
      rw [hagree _ hargs]

theorem C5_llm_receives_full_headers_witness :
    llmCallArgs [] [("Revenue", ["Total Revenue"])] ⟨100, "Q1", "Q", "G"⟩
        ⟨"a.csv", ["Total Revenue", "COGS"]⟩ =
      .ok (["Revenue"], ["Total Revenue", "COGS"]) ∧
    ((["Revenue"], ["Total Revenue", "COGS"]) :
        List String × List String).2 = ["Total Revenue", "COGS"] :=
  ⟨rfl,
   C5_llm_receives_full_headers.1 [] [("Revenue", ["Total Revenue"])]
     ⟨100, "Q1", "Q", "G"⟩ ⟨"a.csv", ["Total Revenue", "COGS"]⟩ _ rfl⟩

/-! ### C6: low-confidence matches are stored and audited -/

theorem ratio_lt_iff (M T1 T2 : Nat) (hT : 0 < T1 + T2) :
    ((2 * M : ℚ) / ((T1 : ℚ) + (T2 : ℚ)) < 7/10) ↔ 20 * M < 7 * (T1 + T2) := by
  have hden : (0 : ℚ) < (T1 : ℚ) + (T2 : ℚ) := by exact_mod_cast hT
  rw [div_lt_div_iff₀ hden (by norm_num : (0:ℚ) < 10)]
  constructor
  · intro h
    have h2 : ((2 * M * 10 : Nat) : ℚ) < ((7 * (T1 + T2) : Nat) : ℚ) := by
      push_cast
      push_cast at h
      linarith
    have := (Nat.cast_lt (α := ℚ)).mp h2
    omega
  · intro h
    have h2 : (2 * M * 10 : Nat) < 7 * (T1 + T2) := by omega
    have h3 : ((2 * M * 10 : Nat) : ℚ) < ((7 * (T1 + T2) : Nat) : ℚ) := by
      exact_mod_cast h2
    push_cast at h3
    linarith

theorem simPass_false_iff (a b : String) :
    simPass a b = false ↔ similarity a b < 7/10 := by
  simp only [simPass, similarity]
  by_cases hT : (a.data.map Char.toLower).length + (b.data.map Char.toLower).length = 0
  · rw [if_pos hT]
    have h1 : 7 * ((a.data.map Char.toLower).length + (b.data.map Char.toLower).length) ≤
        20 * matchTotal (a.data.map Char.toLower) (b.data.map Char.toLower) := by
      rw [hT]; omega
    rw [decide_eq_true h1]
    constructor
    · intro h; exact absurd h (by simp)
    · intro h; exfalso; norm_num at h
  · rw [if_neg hT]
    have hiff := ratio_lt_iff
      (matchTotal (a.data.map Char.toLower) (b.data.map Char.toLower))
      (a.data.map Char.toLower).length (b.data.map Char.toLower).length
      (Nat.pos_of_ne_zero hT)
    constructor
    · intro h
      exact hiff.mpr (Nat.lt_of_not_le (of_decide_eq_false h))
    · intro h
      exact decide_eq_false (not_le.mpr (hiff.mp h))

theorem llmStep_low_seen_eq (ctx : SliceCtx) (vm : VariantMap)
    (llmRes : List (String × String)) (acc : List String × PassState)
    (c r cv std : String)
    (hr : pyLookup llmRes c = some r) (hns : r ∉ sentinels)
    (hsim : simPass c r = false)
    (hseen : mkKey r ctx.snapshotDate ctx.key ∈ acc.2.seen)
    (hvm : pyLookup vm (norm c) = some (cv, std)) :
    llmStep ctx vm llmRes acc c = .ok (c :: acc.1,
      { acc.2 with auditRows := acc.2.auditRows ++
          [lowConfRow ctx c std r (similarity c r)] }) := by
  simp only [llmStep, hr, Option.getD_some, hvm]
  rw [if_neg hns, if_pos hseen, if_neg (by rw [hsim]; simp : ¬ simPass c r = true),
    if_neg hns]

theorem llmStep_low_new_eq (ctx : SliceCtx) (vm : VariantMap)
    (llmRes : List (String × String)) (acc : List String × PassState)
    (c r cv std : String)
    (hr : pyLookup llmRes c = some r) (hns : r ∉ sentinels)
    (hsim : simPass c r = false)
    (hseen : mkKey r ctx.snapshotDate ctx.key ∉ acc.2.seen)
    (hvm : pyLookup vm (norm c) = some (cv, std)) :
    llmStep ctx vm llmRes acc c = .ok (c :: acc.1,
      ⟨mkKey r ctx.snapshotDate ctx.key :: acc.2.seen,
        acc.2.mapRows ++ [llmMapRow ctx r c std],
        acc.2.auditRows ++ [lowConfRow ctx c std r (similarity c r)]⟩) := by
  simp only [llmStep, hr, Option.getD_some, hvm]
  rw [if_neg hns, if_neg hseen, if_neg (by rw [hsim]; simp : ¬ simPass c r = true),
    if_neg hns]

theorem llmStep_pass_new_eq (ctx : SliceCtx) (vm : VariantMap)
    (llmRes : List (String × String)) (acc : List String × PassState)
    (c r cv std : String)
    (hr : pyLookup llmRes c = some r) (hns : r ∉ sentinels)
    (hpass : simPass c r = true)
    (hseen : mkKey r ctx.snapshotDate ctx.key ∉ acc.2.seen)
    (hvm : pyLookup vm (norm c) = some (cv, std)) :
    llmStep ctx vm llmRes acc c = .ok (c :: acc.1,
      ⟨mkKey r ctx.snapshotDate ctx.key :: acc.2.seen,
        acc.2.mapRows ++ [llmMapRow ctx r c std],
        acc.2.auditRows⟩) := by
  simp only [llmStep, hr, Option.getD_some, hvm]
  rw [if_neg hns, if_neg hseen, if_pos hpass]

theorem llmStep_llm_key_invariant (ctx : SliceCtx) (vm : VariantMap)
    (llmRes : List (String × String)) (acc acc' : List String × PassState)
    (c r : String) (h : llmStep ctx vm llmRes acc c = .ok acc')
    (hP : mkKey r ctx.snapshotDate ctx.key ∉ acc.2.seen ∨
      ∃ rec ∈ acc.2.mapRows, rec.matchType = "LLM" ∧ rec.rawLineItem = r ∧
        recInSlice rec ctx.key) :
    mkKey r ctx.snapshotDate ctx.key ∉ acc'.2.seen ∨
      ∃ rec ∈ acc'.2.mapRows, rec.matchType = "LLM" ∧ rec.rawLineItem = r ∧
        recInSlice rec ctx.key := by
  rcases hP with hP | ⟨rec, hrec, hty, hraw, hsl⟩
  · simp only [llmStep] at h
    split at h
    · split at h
      · exact absurd h (by simp)
      · injection h with h
        subst h
        exact Or.inl hP
    · split at h
      · split at h
        · injection h with h
          subst h
          exact Or.inl hP
        · split at h
          · exact absurd h (by simp)
          · injection h with h
            subst h
            exact Or.inl hP
      · split at h
        · exact absurd h (by simp)
        · rename_i rm hrm hnseen cv2 std2 hvm2
          by_cases hkey : mkKey ((pyLookup llmRes c).getD "LLM_ERROR")
              ctx.snapshotDate ctx.key = mkKey r ctx.snapshotDate ctx.key
          · right
            have hraweq : (pyLookup llmRes c).getD "LLM_ERROR" = r := by
              have := congrArg Prod.fst hkey
              simpa [mkKey] using this
            split at h <;>
              (injection h with h; subst h;
               exact ⟨llmMapRow ctx ((pyLookup llmRes c).getD "LLM_ERROR") c std2,
                 List.mem_append.mpr (Or.inr (List.mem_singleton.mpr rfl)),
                 rfl, hraweq, rfl, rfl, rfl, rfl⟩)
          · left
            split at h <;>
              (injection h with h; subst h;
               intro hc;
               rcases List.mem_cons.mp hc with h1 | h1;
               · exact hkey h1.symm
               · exact hP h1)
  · simp only [llmStep] at h
    have hmono : ∃ t, acc'.2.mapRows = acc.2.mapRows ++ t := by
      split at h
      · split at h
        · exact absurd h (by simp)
        · injection h with h; subst h; exact ⟨[], by simp⟩
      · split at h
        · split at h
          · injection h with h; subst h; exact ⟨[], by simp⟩
          · split at h
            · exact absurd h (by simp)
            · injection h with h; subst h; exact ⟨[], by simp⟩
        · split at h
          · exact absurd h (by simp)
          · split at h <;> (injection h with h; subst h; exact ⟨_, rfl⟩)
    obtain ⟨t, ht⟩ := hmono
    exact Or.inr ⟨rec, by rw [ht]; exact List.mem_append.mpr (Or.inl hrec), hty, hraw,
      hsl⟩

theorem llmLoop_low_conf_audit (ctx : SliceCtx) (vm : VariantMap)
    (llmRes : List (String × String)) (items : List String)
    (acc : List String × PassState) (c r : String)
    (hreg : ∀ c' ∈ items, (pyLookup vm (norm c')).isSome)
    (hc : c ∈ items) (hr : pyLookup llmRes c = some r) (hns : r ∉ sentinels)
    (hsim : simPass c r = false) :
    ∃ acc', llmLoop ctx vm llmRes items acc = .ok acc' ∧
      ∃ row ∈ acc'.2.auditRows, row.status = "LOW_CONFIDENCE" ∧
        row.companyLineItem = some c ∧ row.stdLineItem ≠ none := by
  induction items generalizing acc with
  | nil => simp at hc
  | cons c0 rest ih =>
    rcases List.mem_cons.mp hc with rfl | hcrest
    · rcases hvm : pyLookup vm (norm c) with _ | ⟨cv, std⟩
      · have := hreg c (List.mem_cons_self _ _)
        rw [hvm] at this; simp at this
      · by_cases hseen : mkKey r ctx.snapshotDate ctx.key ∈ acc.2.seen
        · have hstep := llmStep_low_seen_eq ctx vm llmRes acc c r cv std hr hns hsim
            hseen hvm
          obtain ⟨acc', hloop⟩ := llmLoop_ok_of_registered ctx vm llmRes rest _
            (fun c' hc' => hreg c' (List.mem_cons_of_mem _ hc'))
          refine ⟨acc', ?_, ?_⟩
          · simp only [llmLoop, hstep]; exact hloop
          · obtain ⟨_, ⟨t2, ht2⟩, _, _⟩ := llmLoop_mono _ _ _ _ _ _ hloop
            refine ⟨lowConfRow ctx c std r (similarity c r), ?_, rfl, rfl, by simp [lowConfRow]⟩
            rw [ht2]
            exact List.mem_append.mpr (Or.inl (List.mem_append.mpr (Or.inr
              (List.mem_singleton.mpr rfl))))
        · have hstep := llmStep_low_new_eq ctx vm llmRes acc c r cv std hr hns hsim
            hseen hvm
          obtain ⟨acc', hloop⟩ := llmLoop_ok_of_registered ctx vm llmRes rest _
            (fun c' hc' => hreg c' (List.mem_cons_of_mem _ hc'))
          refine ⟨acc', ?_, ?_⟩
          · simp only [llmLoop, hstep]; exact hloop
          · obtain ⟨_, ⟨t2, ht2⟩, _, _⟩ := llmLoop_mono _ _ _ _ _ _ hloop
            refine ⟨lowConfRow ctx c std r (similarity c r), ?_, rfl, rfl, by simp [lowConfRow]⟩
            rw [ht2]
            exact List.mem_append.mpr (Or.inl (List.mem_append.mpr (Or.inr
              (List.mem_singleton.mpr rfl))))
    · obtain ⟨acc1, hstep⟩ := llmStep_ok_of_registered ctx vm llmRes acc c0
        (hreg c0 (List.mem_cons_self _ _))
      obtain ⟨acc', hloop, row, hrow, hst, hcomp, hstd⟩ := ih acc1
        (fun c' hc' => hreg c' (List.mem_cons_of_mem _ hc')) hcrest
      refine ⟨acc', ?_, row, hrow, hst, hcomp, hstd⟩
      simp only [llmLoop, hstep]
      exact hloop

theorem llmLoop_llm_record (ctx : SliceCtx) (vm : VariantMap)
    (llmRes : List (String × String)) (items : List String)
    (acc acc' : List String × PassState) (c r : String)
    (h : llmLoop ctx vm llmRes items acc = .ok acc')
    (hc : c ∈ items) (hr : pyLookup llmRes c = some r) (hns : r ∉ sentinels)
    (hP : mkKey r ctx.snapshotDate ctx.key ∉ acc.2.seen ∨
      ∃ rec ∈ acc.2.mapRows, rec.matchType = "LLM" ∧ rec.rawLineItem = r ∧
        recInSlice rec ctx.key) :
    ∃ rec ∈ acc'.2.mapRows, rec.matchType = "LLM" ∧ rec.rawLineItem = r ∧
      recInSlice rec ctx.key := by
  induction items generalizing acc with
  | nil => simp at hc
  | cons c0 rest ih =>
    simp only [llmLoop] at h
    rcases hstep : llmStep ctx vm llmRes acc c0 with e | acc1
    · rw [hstep] at h; exact absurd h (by simp)
    · rw [hstep] at h
      rcases List.mem_cons.mp hc with rfl | hcrest
      · have hP1 : ∃ rec ∈ acc1.2.mapRows, rec.matchType = "LLM" ∧
            rec.rawLineItem = r ∧ recInSlice rec ctx.key := by
          rcases hP with hP | hP
          · rcases hvm : pyLookup vm (norm c) with _ | ⟨cv, std⟩
            · exfalso
              simp only [llmStep, hr, Option.getD_some, hvm] at hstep
              rw [if_neg hns, if_neg hP] at hstep
              exact absurd hstep (by simp)
            · by_cases hpass : simPass c r = true
              · have heq := llmStep_pass_new_eq ctx vm llmRes acc c r cv std hr hns
                  hpass hP hvm
                rw [heq] at hstep
                injection hstep with hstep
                subst hstep
                exact ⟨llmMapRow ctx r c std,
                  List.mem_append.mpr (Or.inr (List.mem_singleton.mpr rfl)), rfl, rfl,
                  rfl, rfl, rfl, rfl⟩
              · have heq := llmStep_low_new_eq ctx vm llmRes acc c r cv std hr hns
                  (by simpa using hpass) hP hvm
                rw [heq] at hstep
                injection hstep with hstep
                subst hstep
                exact ⟨llmMapRow ctx r c std,
                  List.mem_append.mpr (Or.inr (List.mem_singleton.mpr rfl)), rfl, rfl,
                  rfl, rfl, rfl, rfl⟩
          · obtain ⟨⟨t1, ht1⟩, _, _, _⟩ := llmStep_mono _ _ _ _ _ _ hstep
            obtain ⟨rec, hrec, hty, hraw, hsl⟩ := hP
            exact ⟨rec, by rw [ht1]; exact List.mem_append.mpr (Or.inl hrec), hty,
              hraw, hsl⟩
        obtain ⟨⟨t1, ht1⟩, _, _, _⟩ := llmLoop_mono _ _ _ _ _ _ h
        obtain ⟨rec, hrec, hty, hraw, hsl⟩ := hP1
        exact ⟨rec, by rw [ht1]; exact List.mem_append.mpr (Or.inl hrec), hty, hraw,
          hsl⟩
      · have hP1 := llmStep_llm_key_invariant ctx vm llmRes acc acc1 c0 r hstep hP
        exact ih acc1 h hcrest hP1

/-- C6: when the LLM returns a raw-header match `r` for a canonical item `c`
with `similarity(c, r) < 0.70`, the LLM pass still creates and stores the
mapping — an `LLM`-typed `MappingRecord` with `raw_line_item = r` exists
after the loop whenever `r`'s composite key was not already claimed by an
earlier record (§4.5 first-writer-wins) — and additionally appends a
`LOW_CONFIDENCE` audit row for `c`; low confidence never rejects the
mapping. -/
theorem C6_low_confidence_persists (ctx : SliceCtx) (vm : VariantMap)
    (llmRes : List (String × String)) (items : List String)
    (acc : List String × PassState) (c r : String)
    (hreg : ∀ c' ∈ items, (pyLookup vm (norm c')).isSome)
    (hc : c ∈ items) (hr : pyLookup llmRes c = some r) (hns : r ∉ sentinels)
    (hsim : similarity c r < 7/10) :
    ∃ acc', llmLoop ctx vm llmRes items acc = .ok acc' ∧
      (∃ row ∈ acc'.2.auditRows, row.status = "LOW_CONFIDENCE" ∧
        row.companyLineItem = some c ∧ row.stdLineItem ≠ none) ∧
      (mkKey r ctx.snapshotDate ctx.key ∉ acc.2.seen →
        ∃ rec ∈ acc'.2.mapRows, rec.matchType = "LLM" ∧ rec.rawLineItem = r) := by
  have hsimb : simPass c r = false := (simPass_false_iff c r).mpr hsim
  obtain ⟨acc', hloop, row, hrow, hst, hcomp, hstd⟩ :=
    llmLoop_low_conf_audit ctx vm llmRes items acc c r hreg hc hr hns hsimb
  refine ⟨acc', hloop, ⟨row, hrow, hst, hcomp, hstd⟩, ?_⟩
  intro hseen
  obtain ⟨rec, hrec, hty, hraw, _⟩ :=
    llmLoop_llm_record ctx vm llmRes items acc acc' c r hloop hc hr hns
      (Or.inl hseen)
  exact ⟨rec, hrec, hty, hraw⟩

theorem C6_low_confidence_persists_witness :
    ∃ acc', llmLoop ⟨"r", "S", "a.csv", ⟨0, "", "", ""⟩, none⟩
        (buildVocab none [("Revenue", [])]).1 [("Revenue", "Cash")] ["Revenue"]
        ([], initState) = .ok acc' ∧
      (∃ row ∈ acc'.2.auditRows, row.status = "LOW_CONFIDENCE" ∧
        row.companyLineItem = some "Revenue" ∧ row.stdLineItem ≠ none) ∧
      (mkKey "Cash" none ⟨0, "", "", ""⟩ ∉ initState.seen →
        ∃ rec ∈ acc'.2.mapRows, rec.matchType = "LLM" ∧ rec.rawLineItem = "Cash") := by
  have h := C6_low_confidence_persists ⟨"r", "S", "a.csv", ⟨0, "", "", ""⟩, none⟩
    (buildVocab none [("Revenue", [])]).1 [("Revenue", "Cash")] ["Revenue"]
    ([], initState) "Revenue" "Cash" (by decide) (by decide) (by decide) (by decide)
    ((simPass_false_iff "Revenue" "Cash").mp (by decide))
  exact h

/-! ### C1: the deduplication invariant -/

theorem rowKey_exactMapRow (ctx : SliceCtx) (raw cv std : String) :
    rowKey (exactMapRow ctx raw cv std) = mkKey raw ctx.snapshotDate ctx.key := rfl

theorem rowKey_llmMapRow (ctx : SliceCtx) (rm c std : String) :
    rowKey (llmMapRow ctx rm c std) = mkKey rm ctx.snapshotDate ctx.key := rfl

theorem nodup_append_single {α : Type} (l : List α) (x : α) (hl : l.Nodup)
    (hx : x ∉ l) : (l ++ [x]).Nodup := by
  rw [List.nodup_append]
  exact ⟨hl, List.nodup_singleton x, by
    intro a ha hax
    rw [List.mem_singleton] at hax
    exact hx (hax ▸ ha)⟩

theorem exactStep_dedup (ctx : SliceCtx) (vm : VariantMap)
    (acc : List String × PassState) (raw : String) (hInv : DedupInv acc.2) :
    DedupInv (exactStep ctx vm acc raw).2 ∧
      ∃ t, (exactStep ctx vm acc raw).2.mapRows = acc.2.mapRows ++ t ∧
        (∀ key ∈ acc.2.seen, key ∈ (exactStep ctx vm acc raw).2.seen) := by
  rcases hvm : pyLookup vm (norm raw) with _ | ⟨cv, std⟩ <;>
    simp only [exactStep, hvm]
  · exact ⟨hInv, [], by simp, fun key hk => hk⟩
  · by_cases hseen : mkKey raw ctx.snapshotDate ctx.key ∈ acc.2.seen
    · rw [if_pos hseen]
      exact ⟨hInv, [], by simp, fun key hk => hk⟩
    · rw [if_neg hseen]
      refine ⟨⟨?_, ?_⟩, [exactMapRow ctx raw cv std], rfl,
        fun key hk => List.mem_cons_of_mem _ hk⟩
      · show ((acc.2.mapRows ++ [exactMapRow ctx raw cv std]).map rowKey).Nodup
        rw [List.map_append, List.map_singleton]
        apply nodup_append_single _ _ hInv.1
        intro hc
        rcases List.mem_map.mp hc with ⟨rec, hrec, hkeq⟩
        have hmem : rowKey rec ∈ acc.2.seen := hInv.2 rec hrec
        have : rowKey (exactMapRow ctx raw cv std) ∈ acc.2.seen := hkeq ▸ hmem
        exact hseen this
      · intro rec hrec
        rcases List.mem_append.mp hrec with h1 | h1
        · exact List.mem_cons_of_mem _ (hInv.2 rec h1)
        · rw [List.mem_singleton] at h1
          subst h1
          exact List.mem_cons_self _ _

theorem exactPass_dedup (ctx : SliceCtx) (vm : VariantMap) (headers : List String)
    (acc : List String × PassState) (hInv : DedupInv acc.2) :
    DedupInv (exactPass ctx vm headers acc).2 ∧
      ∃ t, (exactPass ctx vm headers acc).2.mapRows = acc.2.mapRows ++ t ∧
        (∀ key ∈ acc.2.seen, key ∈ (exactPass ctx vm headers acc).2.seen) := by
  induction headers generalizing acc with
  | nil =>
    refine ⟨hInv, [], ?_, fun key hk => hk⟩
    rw [List.append_nil]
    rfl
  | cons raw rest ih =>
    obtain ⟨hInv1, t1, ht1, hs1⟩ := exactStep_dedup ctx vm acc raw hInv
    obtain ⟨hInv2, t2, ht2, hs2⟩ := ih (exactStep ctx vm acc raw) hInv1
    exact ⟨hInv2, t1 ++ t2, by
      show (exactPass ctx vm rest (exactStep ctx vm acc raw)).2.mapRows = _
      rw [ht2, ht1, List.append_assoc],
      fun key hk => hs2 key (hs1 key hk)⟩

theorem llmStep_dedup (ctx : SliceCtx) (vm : VariantMap)
    (llmRes : List (String × String)) (acc acc' : List String × PassState)
    (c : String) (h : llmStep ctx vm llmRes acc c = .ok acc')
    (hInv : DedupInv acc.2) : DedupInv acc'.2 := by
  simp only [llmStep] at h
  split at h
  · split at h
    · exact absurd h (by simp)
    · injection h with h
      subst h
      exact hInv
  · split at h
    · split at h
      · injection h with h
        subst h
        exact hInv
      · split at h
        · exact absurd h (by simp)
        · injection h with h
          subst h
          exact hInv
    · rename_i hnseen
      split at h
      · exact absurd h (by simp)
      · rename_i cv std hvm
        have hkey : mkKey ((pyLookup llmRes c).getD "LLM_ERROR")
            ctx.snapshotDate ctx.key ∉ acc.2.seen := hnseen
        have hnodup : ((acc.2.mapRows ++
            [llmMapRow ctx ((pyLookup llmRes c).getD "LLM_ERROR") c std]).map
              rowKey).Nodup := by
          rw [List.map_append, List.map_singleton]
          apply nodup_append_single _ _ hInv.1
          intro hc
          rcases List.mem_map.mp hc with ⟨rec, hrec, hkeq⟩
          have hmem : rowKey rec ∈ acc.2.seen := hInv.2 rec hrec
          have : rowKey (llmMapRow ctx ((pyLookup llmRes c).getD "LLM_ERROR") c std) ∈
              acc.2.seen := hkeq ▸ hmem
          exact hkey this
        have hmem : ∀ rec ∈ acc.2.mapRows ++
            [llmMapRow ctx ((pyLookup llmRes c).getD "LLM_ERROR") c std],
            rowKey rec ∈ mkKey ((pyLookup llmRes c).getD "LLM_ERROR")
              ctx.snapshotDate ctx.key :: acc.2.seen := by
          intro rec hrec
          rcases List.mem_append.mp hrec with h1 | h1
          · exact List.mem_cons_of_mem _ (hInv.2 rec h1)
          · rw [List.mem_singleton] at h1
            subst h1
            exact List.mem_cons_self _ _
        split at h <;> (injection h with h; subst h; exact ⟨hnodup, hmem⟩)

theorem llmLoop_dedup (ctx : SliceCtx) (vm : VariantMap)
    (llmRes : List (String × String)) (items : List String)
    (acc acc' : List String × PassState)
    (h : llmLoop ctx vm llmRes items acc = .ok acc') (hInv : DedupInv acc.2) :
    DedupInv acc'.2 := by
  induction items generalizing acc with
  | nil =>
    simp only [llmLoop] at h
    injection h with h
    subst h
    exact hInv
  | cons c rest ih =>
    simp only [llmLoop] at h
    rcases hstep : llmStep ctx vm llmRes acc c with e | acc1
    · rw [hstep] at h; exact absurd h (by simp)
    · rw [hstep] at h
      exact ih acc1 h (llmStep_dedup ctx vm llmRes acc acc1 c hstep hInv)

theorem emLoop_state (ctx : SliceCtx) (vm : VariantMap) (ms : List String)
    (st st' : PassState) (h : emLoop ctx vm ms st = .ok st') :
    st'.mapRows = st.mapRows ∧ st'.seen = st.seen ∧
      ∃ t, st'.auditRows = st.auditRows ++ t := by
  induction ms generalizing st with
  | nil =>
    simp only [emLoop] at h
    injection h with h
    subst h
    exact ⟨rfl, rfl, [], by simp⟩
  | cons m rest ih =>
    simp only [emLoop] at h
    rcases hvm : pyLookup vm (norm m) with _ | ⟨cv, std⟩
    · rw [hvm] at h; exact absurd h (by simp)
    · rw [hvm] at h
      obtain ⟨h1, h2, t, ht⟩ := ih _ h
      exact ⟨h1, h2, expectedMissingRow ctx m std :: t, by
        rw [ht]; simp⟩

theorem expectedMissingPass_state (ctx : SliceCtx) (vm : VariantMap)
    (mapped : List String) (st st' : PassState)
    (h : expectedMissingPass ctx vm mapped st = .ok st') :
    st'.mapRows = st.mapRows ∧ st'.seen = st.seen ∧
      ∃ t, st'.auditRows = st.auditRows ++ t :=
  emLoop_state ctx vm _ st st' h

theorem rawUnmappedPass_state (ctx : SliceCtx) (vm : VariantMap)
    (llmRes : List (String × String)) (headers : List String) (st : PassState) :
    (rawUnmappedPass ctx vm llmRes headers st).mapRows = st.mapRows ∧
      (rawUnmappedPass ctx vm llmRes headers st).seen = st.seen ∧
      ∃ t, (rawUnmappedPass ctx vm llmRes headers st).auditRows =
        st.auditRows ++ t :=
  ⟨rfl, rfl, _, rfl⟩

theorem handleSlice_ok_decomp (run symbol : String) (dated : List (Nat × CanonMap))
    (timeless : CanonMap) (oracle : Oracle) (st0 : PassState) (k : SliceKey)
    (d : SliceData) (s' : PassState)
    (h : handleSlice run symbol dated timeless oracle st0 k d = .ok s') :
    ∃ (snapshotDate : Option Nat) (snapCanon : Option CanonMap)
      (acc2 : List String × PassState),
      llmLoop ⟨run, symbol, d.csvPath, k, snapshotDate⟩
          (buildVocab snapCanon timeless).1
          (mapCanonicalToRaw (buildVocab snapCanon timeless).2 d.headers
            (oracle (buildVocab snapCanon timeless).2 d.headers))
          (buildVocab snapCanon timeless).2
          (exactPass ⟨run, symbol, d.csvPath, k, snapshotDate⟩
            (buildVocab snapCanon timeless).1 d.headers ([], st0)) = .ok acc2 ∧
      expectedMissingPass ⟨run, symbol, d.csvPath, k, snapshotDate⟩
          (buildVocab snapCanon timeless).1 acc2.1
          (rawUnmappedPass ⟨run, symbol, d.csvPath, k, snapshotDate⟩
            (buildVocab snapCanon timeless).1
            (mapCanonicalToRaw (buildVocab snapCanon timeless).2 d.headers
              (oracle (buildVocab snapCanon timeless).2 d.headers))
            d.headers acc2.2) = .ok s' := by
  rcases hde : dated.isEmpty with _ | _
  · simp only [handleSlice, hde, Bool.false_eq_true, if_false] at h
    rcases hcs : chooseSnapshot (dated.map (·.1)) k.reportDate with e | sd
    · simp only [hcs] at h
      exact absurd h (by simp)
    · simp only [hcs] at h
      rcases hlu : pyLookup dated sd with _ | cm
      · simp only [hlu] at h
        exact absurd h (by simp)
      · simp only [hlu] at h
        rcases hloop : llmLoop ⟨run, symbol, d.csvPath, k, some sd⟩
            (buildVocab (some cm) timeless).1
            (mapCanonicalToRaw (buildVocab (some cm) timeless).2 d.headers
              (oracle (buildVocab (some cm) timeless).2 d.headers))
            (buildVocab (some cm) timeless).2
            (exactPass ⟨run, symbol, d.csvPath, k, some sd⟩
              (buildVocab (some cm) timeless).1 d.headers ([], st0)) with e | acc2
        · rw [hloop] at h
          exact absurd h (by simp)
        · rw [hloop] at h
          exact ⟨some sd, some cm, acc2, hloop, h⟩
  · simp only [handleSlice, hde, if_true] at h
    rcases hloop : llmLoop ⟨run, symbol, d.csvPath, k, none⟩
        (buildVocab none timeless).1
        (mapCanonicalToRaw (buildVocab none timeless).2 d.headers
          (oracle (buildVocab none timeless).2 d.headers))
        (buildVocab none timeless).2
        (exactPass ⟨run, symbol, d.csvPath, k, none⟩
          (buildVocab none timeless).1 d.headers ([], st0)) with e | acc2
    · rw [hloop] at h
      exact absurd h (by simp)
    · rw [hloop] at h
      exact ⟨none, none, acc2, hloop, h⟩

theorem handleSlice_dedup (run symbol : String) (dated : List (Nat × CanonMap))
    (timeless : CanonMap) (oracle : Oracle) (st0 : PassState) (k : SliceKey)
    (d : SliceData) (s' : PassState)
    (h : handleSlice run symbol dated timeless oracle st0 k d = .ok s')
    (hInv : DedupInv st0) :
    DedupInv s' ∧ ∃ t, s'.mapRows = st0.mapRows ++ t := by
  obtain ⟨snapshotDate, snapCanon, acc2, hloop, hrest⟩ :=
    handleSlice_ok_decomp run symbol dated timeless oracle st0 k d s' h
  have hInv0 : DedupInv (([], st0) : List String × PassState).2 := hInv
  obtain ⟨hInv1, t1, ht1, _⟩ := exactPass_dedup _ _ d.headers ([], st0) hInv0
  have hInv2 := llmLoop_dedup _ _ _ _ _ _ hloop hInv1
  obtain ⟨⟨t2, ht2⟩, _, _, _⟩ := llmLoop_mono _ _ _ _ _ _ hloop
  obtain ⟨hru1, hru2, _⟩ := rawUnmappedPass_state ⟨run, symbol, d.csvPath, k,
    snapshotDate⟩ (buildVocab snapCanon timeless).1
    (mapCanonicalToRaw (buildVocab snapCanon timeless).2 d.headers
      (oracle (buildVocab snapCanon timeless).2 d.headers)) d.headers acc2.2
  obtain ⟨hem1, hem2, _⟩ := expectedMissingPass_state _ _ _ _ _ hrest
  constructor
  · have : DedupInv (rawUnmappedPass ⟨run, symbol, d.csvPath, k, snapshotDate⟩
        (buildVocab snapCanon timeless).1
        (mapCanonicalToRaw (buildVocab snapCanon timeless).2 d.headers
          (oracle (buildVocab snapCanon timeless).2 d.headers)) d.headers acc2.2) := by
      unfold DedupInv at hInv2 ⊢
      rw [hru1, hru2]
      exact hInv2
    unfold DedupInv at this ⊢
    rw [hem1, hem2]
    exact this
  · refine ⟨t1 ++ t2, ?_⟩
    rw [hem1, hru1, ht2, ht1, List.append_assoc]

/-- C1: across a company-processing pass (any starting state satisfying the
dedup invariant, in particular the clean one), the emitted mapping rows keep
pairwise-distinct composite keys
`(raw_line_item, snapshot_date, report_date, period, period_type,
group_or_company_level)`, each key is in `seen_map_keys`, a duplicate
submission — from the exact matcher, the LLM matcher, or both — appends
nothing, and previously accepted rows are never overwritten (the row list
only grows by appending). -/
theorem C1_dedup_per_run (run symbol : String) (dated : List (Nat × CanonMap))
    (timeless : CanonMap) (oracle : Oracle)
    (slices : List (SliceKey × SliceData)) (st0 s1 : PassState)
    (hInv : DedupInv st0)
    (h : processSlices run symbol dated timeless oracle slices st0 = .ok s1) :
    DedupInv s1 ∧ ∃ t, s1.mapRows = st0.mapRows ++ t := by
  induction slices generalizing st0 with
  | nil =>
    simp only [processSlices] at h
    injection h with h
    subst h
    exact ⟨hInv, [], by simp⟩
  | cons kd rest ih =>
    obtain ⟨k, d⟩ := kd
    simp only [processSlices] at h
    rcases hs : handleSlice run symbol dated timeless oracle st0 k d with e | st1
    · rw [hs] at h; exact absurd h (by simp)
    · rw [hs] at h
      obtain ⟨hInv1, t1, ht1⟩ := handleSlice_dedup run symbol dated timeless oracle
        st0 k d st1 hs hInv
      obtain ⟨hInv2, t2, ht2⟩ := ih st1 hInv1 h
      exact ⟨hInv2, t1 ++ t2, by rw [ht2, ht1, List.append_assoc]⟩

theorem C1_dedup_per_run_witness :
    DedupInv initState ∧
    ∃ s1, processSlices "r" "ABC" [] [("Revenue", ["Total Revenue"])]
        (fun cs _ => some (cs.map (fun c => (c, "NONE"))))
        [(⟨100, "Q1", "Q", "G"⟩, ⟨"a.csv", ["Total Revenue"]⟩)] initState = .ok s1 ∧
      DedupInv s1 ∧ ∃ t, s1.mapRows = initState.mapRows ++ t := by
  refine ⟨⟨by simp [DedupInv, initState], by simp [DedupInv, initState]⟩, ?_⟩
  refine ⟨_, rfl, ?_⟩
  exact C1_dedup_per_run "r" "ABC" [] [("Revenue", ["Total Revenue"])]
    (fun cs _ => some (cs.map (fun c => (c, "NONE"))))
    [(⟨100, "Q1", "Q", "G"⟩, ⟨"a.csv", ["Total Revenue"]⟩)] initState _
    ⟨by simp [DedupInv, initState], by simp [DedupInv, initState]⟩ rfl

/-! ### C8: characterizations of the four passes -/

theorem mkKey_inj_raw (r r' : String) (s : Option Nat) (k : SliceKey)
    (h : mkKey r s k = mkKey r' s k) : r = r' := congrArg Prod.fst h

theorem exactPass_char (ctx : SliceCtx) (vm : VariantMap) (headers : List String)
    (acc : List String × PassState)
    (hN : headers.Nodup)
    (hs0 : ∀ r ∈ headers, mkKey r ctx.snapshotDate ctx.key ∉ acc.2.seen) :
    (exactPass ctx vm headers acc).2.auditRows = acc.2.auditRows ∧
    (∀ rec, rec ∈ (exactPass ctx vm headers acc).2.mapRows ↔
      rec ∈ acc.2.mapRows ∨ ∃ r ∈ headers, ∃ cv std,
        pyLookup vm (norm r) = some (cv, std) ∧ rec = exactMapRow ctx r cv std) ∧
    (∀ key, key ∈ (exactPass ctx vm headers acc).2.seen ↔
      key ∈ acc.2.seen ∨ ∃ r ∈ headers,
        (pyLookup vm (norm r)).isSome ∧ key = mkKey r ctx.snapshotDate ctx.key) ∧
    (∀ x, x ∈ (exactPass ctx vm headers acc).1 ↔
      x ∈ acc.1 ∨ ∃ r ∈ headers, ∃ std, pyLookup vm (norm r) = some (x, std)) := by
  induction headers generalizing acc with
  | nil =>
    refine ⟨rfl, fun rec => ?_, fun key => ?_, fun x => ?_⟩ <;> simp [exactPass]
  | cons raw rest ih =>
    have hNr : rest.Nodup := (List.nodup_cons.mp hN).2
    have hrawrest : raw ∉ rest := (List.nodup_cons.mp hN).1
    rw [show exactPass ctx vm (raw :: rest) acc =
      exactPass ctx vm rest (exactStep ctx vm acc raw) from rfl]
    rcases hvm : pyLookup vm (norm raw) with _ | ⟨cv, std⟩
    · have hstep : exactStep ctx vm acc raw = acc := by
        simp only [exactStep, hvm]
      rw [hstep]
      obtain ⟨h1, h2, h3, h4⟩ := ih acc hNr
        (fun r hr => hs0 r (List.mem_cons_of_mem _ hr))
      refine ⟨h1, fun rec => ?_, fun key => ?_, fun x => ?_⟩
      · rw [h2 rec]
        constructor
        · rintro (h | ⟨r, hr, cv, std, hl, hrec⟩)
          · exact Or.inl h
          · exact Or.inr ⟨r, List.mem_cons_of_mem _ hr, cv, std, hl, hrec⟩
        · rintro (h | ⟨r, hr, cv, std, hl, hrec⟩)
          · exact Or.inl h
          · rcases List.mem_cons.mp hr with rfl | hr'
            · rw [hvm] at hl; exact absurd hl (by simp)
            · exact Or.inr ⟨r, hr', cv, std, hl, hrec⟩
      · rw [h3 key]
        constructor
        · rintro (h | ⟨r, hr, hl, hkey⟩)
          · exact Or.inl h
          · exact Or.inr ⟨r, List.mem_cons_of_mem _ hr, hl, hkey⟩
        · rintro (h | ⟨r, hr, hl, hkey⟩)
          · exact Or.inl h
          · rcases List.mem_cons.mp hr with rfl | hr'
            · rw [hvm] at hl; simp at hl
            · exact Or.inr ⟨r, hr', hl, hkey⟩
      · rw [h4 x]
        constructor
        · rintro (h | ⟨r, hr, std, hl⟩)
          · exact Or.inl h
          · exact Or.inr ⟨r, List.mem_cons_of_mem _ hr, std, hl⟩
        · rintro (h | ⟨r, hr, std, hl⟩)
          · exact Or.inl h
          · rcases List.mem_cons.mp hr with rfl | hr'
            · rw [hvm] at hl; exact absurd hl (by simp)
            · exact Or.inr ⟨r, hr', std, hl⟩
    · have hkey := hs0 raw (List.mem_cons_self _ _)
      have hstep : exactStep ctx vm acc raw = (cv :: acc.1,
          ⟨mkKey raw ctx.snapshotDate ctx.key :: acc.2.seen,
            acc.2.mapRows ++ [exactMapRow ctx raw cv std], acc.2.auditRows⟩) := by
        simp only [exactStep, hvm]
        rw [if_neg hkey]
      rw [hstep]
      have hs0' : ∀ r ∈ rest, mkKey r ctx.snapshotDate ctx.key ∉
          ((cv :: acc.1, (⟨mkKey raw ctx.snapshotDate ctx.key :: acc.2.seen,
            acc.2.mapRows ++ [exactMapRow ctx raw cv std], acc.2.auditRows⟩ :
              PassState)) : List String × PassState).2.seen := by
        intro r hr hc
        rcases List.mem_cons.mp hc with h | h
        · exact hrawrest (mkKey_inj_raw r raw _ _ h ▸ hr)
        · exact hs0 r (List.mem_cons_of_mem _ hr) h
      obtain ⟨h1, h2, h3, h4⟩ := ih (cv :: acc.1,
        ⟨mkKey raw ctx.snapshotDate ctx.key :: acc.2.seen,
          acc.2.mapRows ++ [exactMapRow ctx raw cv std], acc.2.auditRows⟩) hNr hs0'
      refine ⟨h1, fun rec => ?_, fun key => ?_, fun x => ?_⟩
      · rw [h2 rec]
        show rec ∈ acc.2.mapRows ++ [exactMapRow ctx raw cv std] ∨ _ ↔ _
        constructor
        · rintro (h | ⟨r, hr, cv', std', hl, hrec⟩)
          · rcases List.mem_append.mp h with h | h
            · exact Or.inl h
            · rw [List.mem_singleton] at h
              exact Or.inr ⟨raw, List.mem_cons_self _ _, cv, std, hvm, h⟩
          · exact Or.inr ⟨r, List.mem_cons_of_mem _ hr, cv', std', hl, hrec⟩
        · rintro (h | ⟨r, hr, cv', std', hl, hrec⟩)
          · exact Or.inl (List.mem_append.mpr (Or.inl h))
          · rcases List.mem_cons.mp hr with rfl | hr'
            · rw [hvm] at hl
              injection hl with hl
              injection hl with hcv hstd
              subst hcv; subst hstd
              exact Or.inl (List.mem_append.mpr (Or.inr (List.mem_singleton.mpr hrec)))
            · exact Or.inr ⟨r, hr', cv', std', hl, hrec⟩
      · rw [h3 key]
        show key ∈ mkKey raw ctx.snapshotDate ctx.key :: acc.2.seen ∨ _ ↔ _
        constructor
        · rintro (h | ⟨r, hr, hl, hkeq⟩)
          · rcases List.mem_cons.mp h with h | h
            · exact Or.inr ⟨raw, List.mem_cons_self _ _, by rw [hvm]; rfl, h⟩
            · exact Or.inl h
          · exact Or.inr ⟨r, List.mem_cons_of_mem _ hr, hl, hkeq⟩
        · rintro (h | ⟨r, hr, hl, hkeq⟩)
          · exact Or.inl (List.mem_cons_of_mem _ h)
          · rcases List.mem_cons.mp hr with rfl | hr'
            · exact Or.inl (hkeq ▸ List.mem_cons_self _ _)
            · exact Or.inr ⟨r, hr', hl, hkeq⟩
      · rw [h4 x]
        show x ∈ cv :: acc.1 ∨ _ ↔ _
        constructor
        · rintro (h | ⟨r, hr, std', hl⟩)
          · rcases List.mem_cons.mp h with h | h
            · exact Or.inr ⟨raw, List.mem_cons_self _ _, std, h ▸ hvm⟩
            · exact Or.inl h
          · exact Or.inr ⟨r, List.mem_cons_of_mem _ hr, std', hl⟩
        · rintro (h | ⟨r, hr, std', hl⟩)
          · exact Or.inl (List.mem_cons_of_mem _ h)
          · rcases List.mem_cons.mp hr with rfl | hr'
            · rw [hvm] at hl
              injection hl with hl
              injection hl with hx hstd
              subst hx
              exact Or.inl (List.mem_cons_self _ _)
            · exact Or.inr ⟨r, hr', std', hl⟩

theorem getD_nonsentinel (llmRes : List (String × String)) (c : String)
    (h : (pyLookup llmRes c).getD "LLM_ERROR" ∉ sentinels) :
    pyLookup llmRes c = some ((pyLookup llmRes c).getD "LLM_ERROR") := by
  rcases hl : pyLookup llmRes c with _ | v
  · rw [hl] at h
    exact absurd (by simp [sentinels]) h
  · rfl

theorem llmStep_delta (ctx : SliceCtx) (vm : VariantMap)
    (llmRes : List (String × String)) (acc acc' : List String × PassState)
    (c : String) (h : llmStep ctx vm llmRes acc c = .ok acc') :
    (∀ rec ∈ acc'.2.mapRows, rec ∈ acc.2.mapRows ∨
      ∃ std, pyLookup llmRes c = some rec.rawLineItem ∧
        rec.rawLineItem ∉ sentinels ∧ rec = llmMapRow ctx rec.rawLineItem c std ∧
        rowKey rec ∉ acc.2.seen) ∧
    (∀ row ∈ acc'.2.auditRows, row ∈ acc.2.auditRows ∨
      ∃ std, (row = sentinelRow ctx c std ((pyLookup llmRes c).getD "LLM_ERROR") ∧
          (pyLookup llmRes c).getD "LLM_ERROR" ∈ sentinels) ∨
        ∃ r, row = lowConfRow ctx c std r (similarity c r)) ∧
    (∀ x ∈ acc'.1, x ∈ acc.1 ∨ x = c) := by
  simp only [llmStep] at h
  split at h
  · rename_i hsent
    split at h
    · exact absurd h (by simp)
    · rename_i cv std hvm
      injection h with h
      subst h
      refine ⟨fun rec hrec => Or.inl hrec, fun row hrow => ?_, fun x hx => Or.inl hx⟩
      rcases List.mem_append.mp hrow with h1 | h1
      · exact Or.inl h1
      · rw [List.mem_singleton] at h1
        exact Or.inr ⟨std, Or.inl ⟨h1, hsent⟩⟩
  · rename_i hsent
    split at h
    · split at h
      · injection h with h
        subst h
        refine ⟨fun rec hrec => Or.inl hrec, fun row hrow => Or.inl hrow,
          fun x hx => ?_⟩
        rcases List.mem_cons.mp hx with h1 | h1
        · exact Or.inr h1
        · exact Or.inl h1
      · split at h
        · exact absurd h (by simp)
        · rename_i cv std hvm
          injection h with h
          subst h
          refine ⟨fun rec hrec => Or.inl hrec, fun row hrow => ?_, fun x hx => ?_⟩
          · rcases List.mem_append.mp hrow with h1 | h1
            · exact Or.inl h1
            · rw [List.mem_singleton] at h1
              exact Or.inr ⟨std, Or.inr ⟨(pyLookup llmRes c).getD "LLM_ERROR", h1⟩⟩
          · rcases List.mem_cons.mp hx with h1 | h1
            · exact Or.inr h1
            · exact Or.inl h1
    · rename_i hnseen
      split at h
      · exact absurd h (by simp)
      · rename_i cv std hvm
        have hentry : ∀ rec ∈ acc.2.mapRows ++
            [llmMapRow ctx ((pyLookup llmRes c).getD "LLM_ERROR") c std],
            rec ∈ acc.2.mapRows ∨
            ∃ std', pyLookup llmRes c = some rec.rawLineItem ∧
              rec.rawLineItem ∉ sentinels ∧
              rec = llmMapRow ctx rec.rawLineItem c std' ∧
              rowKey rec ∉ acc.2.seen := by
          intro rec hrec
          rcases List.mem_append.mp hrec with h1 | h1
          · exact Or.inl h1
          · rw [List.mem_singleton] at h1
            subst h1
            exact Or.inr ⟨std, getD_nonsentinel llmRes c hsent, hsent, rfl, hnseen⟩
        split at h <;>
          (injection h with h; subst h;
            refine ⟨hentry, fun row hrow => ?_, fun x hx => ?_⟩)
        · exact Or.inl hrow
        · rcases List.mem_cons.mp hx with h1 | h1
          · exact Or.inr h1
          · exact Or.inl h1
        · rcases List.mem_append.mp hrow with h1 | h1
          · exact Or.inl h1
          · rw [List.mem_singleton] at h1
            exact Or.inr ⟨std, Or.inr ⟨(pyLookup llmRes c).getD "LLM_ERROR", h1⟩⟩
        · rcases List.mem_cons.mp hx with h1 | h1
          · exact Or.inr h1
          · exact Or.inl h1

theorem llmLoop_delta (ctx : SliceCtx) (vm : VariantMap)
    (llmRes : List (String × String)) (items : List String)
    (acc acc' : List String × PassState)
    (h : llmLoop ctx vm llmRes items acc = .ok acc') :
    (∀ rec ∈ acc'.2.mapRows, rec ∈ acc.2.mapRows ∨
      ∃ c ∈ items, ∃ std, pyLookup llmRes c = some rec.rawLineItem ∧
        rec.rawLineItem ∉ sentinels ∧ rec = llmMapRow ctx rec.rawLineItem c std ∧
        rowKey rec ∉ acc.2.seen) ∧
    (∀ row ∈ acc'.2.auditRows, row ∈ acc.2.auditRows ∨
      ∃ c ∈ items, ∃ std,
        (row = sentinelRow ctx c std ((pyLookup llmRes c).getD "LLM_ERROR") ∧
          (pyLookup llmRes c).getD "LLM_ERROR" ∈ sentinels) ∨
        ∃ r, row = lowConfRow ctx c std r (similarity c r)) ∧
    (∀ x ∈ acc'.1, x ∈ acc.1 ∨ x ∈ items) := by
  induction items generalizing acc with
  | nil =>
    simp only [llmLoop] at h
    injection h with h
    subst h
    exact ⟨fun rec hrec => Or.inl hrec, fun row hrow => Or.inl hrow,
      fun x hx => Or.inl hx⟩
  | cons c0 rest ih =>
    simp only [llmLoop] at h
    rcases hstep : llmStep ctx vm llmRes acc c0 with e | acc1
    · rw [hstep] at h; exact absurd h (by simp)
    · rw [hstep] at h
      obtain ⟨hd1, hd2, hd3⟩ := llmStep_delta ctx vm llmRes acc acc1 c0 hstep
      obtain ⟨hl1, hl2, hl3⟩ := ih acc1 h
      obtain ⟨_, _, hseen, _⟩ := llmStep_mono _ _ _ _ _ _ hstep
      refine ⟨fun rec hrec => ?_, fun row hrow => ?_, fun x hx => ?_⟩
      · rcases hl1 rec hrec with h1 | ⟨c, hcr, std, hlk, hns, hform, hkey⟩
        · rcases hd1 rec h1 with h2 | ⟨std, hlk, hns, hform, hkey⟩
          · exact Or.inl h2
          · exact Or.inr ⟨c0, List.mem_cons_self _ _, std, hlk, hns, hform, hkey⟩
        · refine Or.inr ⟨c, List.mem_cons_of_mem _ hcr, std, hlk, hns, hform, ?_⟩
          intro hc
          exact hkey (hseen _ hc)
      · rcases hl2 row hrow with h1 | ⟨c, hcr, std, hform⟩
        · rcases hd2 row h1 with h2 | ⟨std, hform⟩
          · exact Or.inl h2
          · exact Or.inr ⟨c0, List.mem_cons_self _ _, std, hform⟩
        · exact Or.inr ⟨c, List.mem_cons_of_mem _ hcr, std, hform⟩
      · rcases hl3 x hx with h1 | h1
        · rcases hd3 x h1 with h2 | h2
          · exact Or.inl h2
          · exact Or.inr (h2 ▸ List.mem_cons_self _ _)
        · exact Or.inr (List.mem_cons_of_mem _ h1)

theorem llmLoop_per_canonical (ctx : SliceCtx) (vm : VariantMap)
    (llmRes : List (String × String)) (items : List String)
    (acc acc' : List String × PassState)
    (h : llmLoop ctx vm llmRes items acc = .ok acc') :
    ∀ c ∈ items,
      (pyLookup llmRes c).getD "LLM_ERROR" ∉ sentinels ∨
      ∃ std, sentinelRow ctx c std ((pyLookup llmRes c).getD "LLM_ERROR") ∈
          acc'.2.auditRows ∧ (pyLookup llmRes c).getD "LLM_ERROR" ∈ sentinels := by
  induction items generalizing acc with
  | nil => intro c hc; simp at hc
  | cons c0 rest ih =>
    intro c hc
    simp only [llmLoop] at h
    rcases hstep : llmStep ctx vm llmRes acc c0 with e | acc1
    · rw [hstep] at h; exact absurd h (by simp)
    · rw [hstep] at h
      rcases List.mem_cons.mp hc with rfl | hcrest
      · by_cases hsent : (pyLookup llmRes c).getD "LLM_ERROR" ∈ sentinels
        · rcases hvm : pyLookup vm (norm c) with _ | ⟨cv, std⟩
          · exfalso
            simp only [llmStep, hvm] at hstep
            rw [if_pos hsent] at hstep
            exact absurd hstep (by simp)
          · have heq := llmStep_sentinel_eq ctx vm llmRes acc c cv std hsent hvm
            rw [heq] at hstep
            injection hstep with hstep
            subst hstep
            obtain ⟨_, ⟨t2, ht2⟩, _, _⟩ := llmLoop_mono _ _ _ _ _ _ h
            refine Or.inr ⟨std, ?_, hsent⟩
            rw [ht2]
            exact List.mem_append.mpr (Or.inl (List.mem_append.mpr (Or.inr
              (List.mem_singleton.mpr rfl))))
        · exact Or.inl hsent
      · exact ih acc1 h c hcrest

theorem recInSlice_rowKey (rec : MapRow) (k : SliceKey) :
    recInSlice rec k ↔ keyInSlice (rowKey rec) k := Iff.rfl

theorem keyInSlice_mkKey (r : String) (s : Option Nat) (k : SliceKey) :
    keyInSlice (mkKey r s k) k := ⟨rfl, rfl, rfl, rfl⟩

theorem vmFold_key_norm (pairs : List (String × String)) (init : VariantMap)
    (hinit : ∀ p ∈ init, p.1 = norm p.2.1) :
    ∀ p ∈ vmFold init pairs, p.1 = norm p.2.1 := by
  induction pairs generalizing init with
  | nil => exact hinit
  | cons q rest ih =>
    refine ih (addVariant init q.1 q.2) ?_
    intro p hp
    unfold addVariant at hp
    by_cases hcont : hasContent q.1
    · rw [if_pos hcont] at hp
      rcases mem_pyInsert _ _ _ _ hp with h1 | h1
      · rw [h1]
      · exact hinit p h1
    · rw [if_neg hcont] at hp
      exact hinit p hp

theorem vmFold_keysNodup (pairs : List (String × String)) (init : VariantMap)
    (hinit : (init.map Prod.fst).Nodup) :
    ((vmFold init pairs).map Prod.fst).Nodup := by
  induction pairs generalizing init with
  | nil => exact hinit
  | cons q rest ih =>
    refine ih (addVariant init q.1 q.2) ?_
    unfold addVariant
    by_cases hcont : hasContent q.1
    · rw [if_pos hcont]
      exact keysNodup_pyInsert _ _ _ hinit
    · rw [if_neg hcont]
      exact hinit

theorem buildVocab_key_norm (snapCanon : Option CanonMap) (timeless : CanonMap) :
    ∀ p ∈ (buildVocab snapCanon timeless).1, p.1 = norm p.2.1 := by
  rw [buildVocab_fst]
  exact vmFold_key_norm _ _ (by simp)

theorem buildVocab_keysNodup (snapCanon : Option CanonMap) (timeless : CanonMap) :
    (((buildVocab snapCanon timeless).1).map Prod.fst).Nodup := by
  rw [buildVocab_fst]
  exact vmFold_keysNodup _ _ (by simp)

theorem vm_value_lookup (vm : VariantMap)
    (hkey : ∀ p ∈ vm, p.1 = norm p.2.1) (hnd : (vm.map Prod.fst).Nodup)
    (v : String) (p : String × (String × String)) (hp : p ∈ vm) (hv : p.2.1 = v) :
    pyLookup vm (norm v) = some (v, p.2.2) := by
  have h1 : p = (norm v, (v, p.2.2)) := by
    obtain ⟨p1, p2, p3⟩ := p
    simp only at hv
    subst hv
    have := hkey _ hp
    simp only at this
    rw [this]
  exact pyLookup_of_mem_nodupKeys _ _ _ hnd (h1 ▸ hp)

theorem mapCanonicalToRaw_keysNodup (canonicalItems rawHeaders : List String)
    (resp : LLMResp) :
    ((mapCanonicalToRaw canonicalItems rawHeaders resp).map Prod.fst).Nodup := by
  cases resp <;> exact keysNodup_pyDictOf _

theorem value_mem_lookup (llmRes : List (String × String))
    (hnd : (llmRes.map Prod.fst).Nodup) (r : String) (h : r ∈ llmRes.map (·.2)) :
    ∃ c, (c, r) ∈ llmRes ∧ pyLookup llmRes c = some r := by
  obtain ⟨p, hp, hr⟩ := List.mem_map.mp h
  refine ⟨p.1, ?_, ?_⟩
  · have : p = (p.1, r) := by rw [← hr]
    exact this ▸ hp
  · exact pyLookup_of_mem_nodupKeys _ _ _ hnd (by
      have : p = (p.1, r) := by rw [← hr]
      exact this ▸ hp)

theorem mem_mappedRawsOf (llmRes : List (String × String)) (r : String) :
    r ∈ mappedRawsOf llmRes ↔ r ∈ llmRes.map (·.2) ∧ r ∉ sentinels := by
  simp [mappedRawsOf, List.mem_filter]

theorem mem_noiseOf (vm : VariantMap) (llmRes : List (String × String))
    (headers : List String) (r : String) :
    r ∈ noiseOf vm llmRes headers ↔
      r ∈ headers ∧ ¬(pyLookup vm (norm r)).isSome ∧ r ∉ mappedRawsOf llmRes := by
  unfold noiseOf
  rw [List.mem_filter]
  constructor
  · rintro ⟨hmem, hcond⟩
    simp only [Bool.and_eq_true, Bool.not_eq_true', List.elem_eq_mem,
      decide_eq_false_iff_not] at hcond
    refine ⟨hmem, ?_, hcond.2⟩
    intro hsome
    exact hcond.1 (List.mem_filter.mpr ⟨hmem, by simp [hsome]⟩)
  · rintro ⟨hmem, hsome, hmr⟩
    refine ⟨hmem, ?_⟩
    simp only [Bool.and_eq_true, Bool.not_eq_true', List.elem_eq_mem,
      decide_eq_false_iff_not]
    refine ⟨?_, hmr⟩
    intro hmemf
    exact hsome (by simpa using (List.mem_filter.mp hmemf).2)

theorem rawUnmappedPass_audit (ctx : SliceCtx) (vm : VariantMap)
    (llmRes : List (String × String)) (headers : List String) (st : PassState) :
    (rawUnmappedPass ctx vm llmRes headers st).auditRows =
      st.auditRows ++ (noiseOf vm llmRes headers).map (rawUnmappedRow ctx) := rfl

theorem emLoop_delta (ctx : SliceCtx) (vm : VariantMap) (ms : List String)
    (st st' : PassState) (h : emLoop ctx vm ms st = .ok st') :
    ∀ row ∈ st'.auditRows, row ∈ st.auditRows ∨
      ∃ m ∈ ms, ∃ cv std, pyLookup vm (norm m) = some (cv, std) ∧
        row = expectedMissingRow ctx m std := by
  induction ms generalizing st with
  | nil =>
    simp only [emLoop] at h
    injection h with h
    subst h
    exact fun row hrow => Or.inl hrow
  | cons m rest ih =>
    simp only [emLoop] at h
    rcases hvm : pyLookup vm (norm m) with _ | ⟨cv, std⟩
    · rw [hvm] at h; exact absurd h (by simp)
    · rw [hvm] at h
      intro row hrow
      rcases ih _ h row hrow with h1 | ⟨m', hm', cv', std', hlk, heq⟩
      · rcases List.mem_append.mp h1 with h2 | h2
        · exact Or.inl h2
        · rw [List.mem_singleton] at h2
          exact Or.inr ⟨m, List.mem_cons_self _ _, cv, std, hvm, h2⟩
      · exact Or.inr ⟨m', List.mem_cons_of_mem _ hm', cv', std', hlk, heq⟩

theorem handleSlice_args_decomp (run symbol : String) (dated : List (Nat × CanonMap))
    (timeless : CanonMap) (oracle : Oracle) (st0 : PassState) (k : SliceKey)
    (d : SliceData) (s' : PassState) (cs rs : List String)
    (h : handleSlice run symbol dated timeless oracle st0 k d = .ok s')
    (ha : llmCallArgs dated timeless k d = .ok (cs, rs)) :
    rs = d.headers ∧
    ∃ (snapshotDate : Option Nat) (snapCanon : Option CanonMap)
      (acc2 : List String × PassState),
      cs = (buildVocab snapCanon timeless).2 ∧
      llmLoop ⟨run, symbol, d.csvPath, k, snapshotDate⟩
          (buildVocab snapCanon timeless).1
          (mapCanonicalToRaw (buildVocab snapCanon timeless).2 d.headers
            (oracle (buildVocab snapCanon timeless).2 d.headers))
          (buildVocab snapCanon timeless).2
          (exactPass ⟨run, symbol, d.csvPath, k, snapshotDate⟩
            (buildVocab snapCanon timeless).1 d.headers ([], st0)) = .ok acc2 ∧
      expectedMissingPass ⟨run, symbol, d.csvPath, k, snapshotDate⟩
          (buildVocab snapCanon timeless).1 acc2.1
          (rawUnmappedPass ⟨run, symbol, d.csvPath, k, snapshotDate⟩
            (buildVocab snapCanon timeless).1
            (mapCanonicalToRaw (buildVocab snapCanon timeless).2 d.headers
              (oracle (buildVocab snapCanon timeless).2 d.headers))
            d.headers acc2.2) = .ok s' := by
  rcases hde : dated.isEmpty with _ | _
  · simp only [handleSlice, hde, Bool.false_eq_true, if_false] at h
    simp only [llmCallArgs, hde, Bool.false_eq_true, if_false] at ha
    rcases hcs : chooseSnapshot (dated.map (·.1)) k.reportDate with e | sd
    · simp only [hcs] at ha
      exact absurd ha (by simp)
    · simp only [hcs] at h ha
      rcases hlu : pyLookup dated sd with _ | cm
      · simp only [hlu] at ha
        exact absurd ha (by simp)
      · simp only [hlu] at h ha
        injection ha with ha
        injection ha with ha1 ha2
        subst ha1
        subst ha2
        rcases hloop : llmLoop ⟨run, symbol, d.csvPath, k, some sd⟩
            (buildVocab (some cm) timeless).1
            (mapCanonicalToRaw (buildVocab (some cm) timeless).2 d.headers
              (oracle (buildVocab (some cm) timeless).2 d.headers))
            (buildVocab (some cm) timeless).2
            (exactPass ⟨run, symbol, d.csvPath, k, some sd⟩
              (buildVocab (some cm) timeless).1 d.headers ([], st0)) with e | acc2
        · rw [hloop] at h
          exact absurd h (by simp)
        · rw [hloop] at h
          exact ⟨rfl, some sd, some cm, acc2, rfl, hloop, h⟩
  · simp only [handleSlice, hde, if_true] at h
    simp only [llmCallArgs, hde, if_true] at ha
    injection ha with ha
    injection ha with ha1 ha2
    subst ha1
    subst ha2
    rcases hloop : llmLoop ⟨run, symbol, d.csvPath, k, none⟩
        (buildVocab none timeless).1
        (mapCanonicalToRaw (buildVocab none timeless).2 d.headers
          (oracle (buildVocab none timeless).2 d.headers))
        (buildVocab none timeless).2
        (exactPass ⟨run, symbol, d.csvPath, k, none⟩
          (buildVocab none timeless).1 d.headers ([], st0)) with e | acc2
    · rw [hloop] at h
      exact absurd h (by simp)
    · rw [hloop] at h
      exact ⟨rfl, none, none, acc2, rfl, hloop, h⟩

theorem slice_buckets (ctx : SliceCtx) (vm : VariantMap) (cs : List String)
    (llmRes : List (String × String)) (headers : List String)
    (st0 : PassState) (acc2 : List String × PassState) (s' : PassState)
    (hN : headers.Nodup)
    (hK : ∀ key ∈ st0.seen, ¬ keyInSlice key ctx.key)
    (hA : ∀ row ∈ st0.auditRows, ¬ rowInSlice row ctx.key)
    (hI : DedupInv st0)
    (hkeysN : (llmRes.map Prod.fst).Nodup)
    (hkeys : ∀ p ∈ llmRes, p.1 ∈ cs)
    (hvmkey : ∀ p ∈ vm, p.1 = norm p.2.1)
    (hvmnd : (vm.map Prod.fst).Nodup)
    (hloop : llmLoop ctx vm llmRes cs (exactPass ctx vm headers ([], st0)) = .ok acc2)
    (hrest : expectedMissingPass ctx vm acc2.1
      (rawUnmappedPass ctx vm llmRes headers acc2.2) = .ok s') :
    (∀ r ∈ headers, exactlyOne
      (∃ rec ∈ s'.mapRows, rec.matchType = "EXACT" ∧ rec.rawLineItem = r ∧
        recInSlice rec ctx.key)
      (∃ rec ∈ s'.mapRows, rec.matchType = "LLM" ∧ rec.rawLineItem = r ∧
        recInSlice rec ctx.key)
      (∃ row ∈ s'.auditRows, row.status = "RAW_UNMAPPED" ∧ row.llmDetail = some r ∧
        rowInSlice row ctx.key)) ∧
    (∀ c ∈ cs,
      (∃ row ∈ s'.auditRows, rowInSlice row ctx.key ∧
        row.companyLineItem = some c ∧ row.status ∈ sentinels) ∨
      (∃ r, pyLookup llmRes c = some r ∧ r ∉ sentinels ∧
        ∃ rec ∈ s'.mapRows, recInSlice rec ctx.key ∧ rec.rawLineItem = r)) ∧
    (∀ row ∈ s'.auditRows, rowInSlice row ctx.key → row.status = "EXPECTED_MISSING" →
      ∃ m, row.companyLineItem = some m ∧ m ∉ headers) := by
  have hs0 : ∀ r ∈ headers, mkKey r ctx.snapshotDate ctx.key ∉
      (([], st0) : List String × PassState).2.seen :=
    fun r _ hc => hK _ hc (keyInSlice_mkKey r ctx.snapshotDate ctx.key)
  obtain ⟨hE0, hEmap, hEseen, hEmapped⟩ :=
    exactPass_char ctx vm headers ([], st0) hN hs0
  obtain ⟨hLmap, hLaud, hLmapped⟩ := llmLoop_delta ctx vm llmRes cs _ acc2 hloop
  obtain ⟨⟨tL, htL⟩, ⟨tA, htA⟩, hLseen, hLmap2⟩ := llmLoop_mono _ _ _ _ _ _ hloop
  obtain ⟨hem_map, hem_seen, tem, hem_aud⟩ :=
    expectedMissingPass_state ctx vm acc2.1 _ s' hrest
  have hsm : s'.mapRows = acc2.2.mapRows := hem_map
  have hsa : s'.auditRows = acc2.2.auditRows ++
      (noiseOf vm llmRes headers).map (rawUnmappedRow ctx) ++ tem := by
    rw [hem_aud, rawUnmappedPass_audit]
  have hrest' : emLoop ctx vm
      ((vm.map (fun p => p.2.1)).filter (fun v => !(acc2.1.contains v)))
      (rawUnmappedPass ctx vm llmRes headers acc2.2) = .ok s' := hrest
  have hemdelta := emLoop_delta ctx vm
    ((vm.map (fun p => p.2.1)).filter (fun v => !(acc2.1.contains v)))
    (rawUnmappedPass ctx vm llmRes headers acc2.2) s' hrest'
  have haud : ∀ row ∈ s'.auditRows,
      row ∈ st0.auditRows ∨
      (∃ c ∈ cs, ∃ std,
        (row = sentinelRow ctx c std ((pyLookup llmRes c).getD "LLM_ERROR") ∧
          (pyLookup llmRes c).getD "LLM_ERROR" ∈ sentinels) ∨
        ∃ r, row = lowConfRow ctx c std r (similarity c r)) ∨
      (∃ r ∈ noiseOf vm llmRes headers, row = rawUnmappedRow ctx r) ∨
      (∃ m ∈ (vm.map (fun p => p.2.1)).filter (fun v => !(acc2.1.contains v)),
        ∃ cv std, pyLookup vm (norm m) = some (cv, std) ∧
          row = expectedMissingRow ctx m std) := by
    intro row hrow
    rcases hemdelta row hrow with h1 | h1
    · rw [rawUnmappedPass_audit] at h1
      rcases List.mem_append.mp h1 with h2 | h2
      · rcases hLaud row h2 with h3 | h3
        · rw [hE0] at h3
          exact Or.inl h3
        · exact Or.inr (Or.inl h3)
      · obtain ⟨r, hr, heq⟩ := List.mem_map.mp h2
        exact Or.inr (Or.inr (Or.inl ⟨r, hr, heq.symm⟩))
    · exact Or.inr (Or.inr (Or.inr h1))
  refine ⟨?_, ?_, ?_⟩
  · intro r hr
    have hEiff : (∃ rec ∈ s'.mapRows, rec.matchType = "EXACT" ∧
        rec.rawLineItem = r ∧ recInSlice rec ctx.key) ↔
        (pyLookup vm (norm r)).isSome = true := by
      constructor
      · rintro ⟨rec, hrec, hty, hraw, hsl⟩
        rw [hsm] at hrec
        rcases hLmap rec hrec with h1 | ⟨c, hc, std, hlk, hns, hform, hkey⟩
        · rcases (hEmap rec).mp h1 with h2 | ⟨r', hr', cv, std, hlkv, hrec'⟩
          · exact absurd ((recInSlice_rowKey rec ctx.key).mp hsl)
              (hK _ (hI.2 rec h2))
          · have hr'r : r' = r := by rw [hrec'] at hraw; exact hraw
            subst hr'r
            simp [hlkv]
        · have hty2 : ("LLM" : String) = "EXACT" := by
            rw [hform] at hty; exact hty
          exact absurd hty2 (by decide)
      · intro hsome
        obtain ⟨⟨cv, std⟩, hlkv⟩ := Option.isSome_iff_exists.mp hsome
        refine ⟨exactMapRow ctx r cv std, ?_, rfl, rfl, ⟨rfl, rfl, rfl, rfl⟩⟩
        rw [hsm, htL]
        exact List.mem_append.mpr (Or.inl ((hEmap _).mpr
          (Or.inr ⟨r, hr, cv, std, hlkv, rfl⟩)))
    have hLiff : (∃ rec ∈ s'.mapRows, rec.matchType = "LLM" ∧
        rec.rawLineItem = r ∧ recInSlice rec ctx.key) ↔
        (¬(pyLookup vm (norm r)).isSome = true ∧ r ∈ mappedRawsOf llmRes) := by
      constructor
      · rintro ⟨rec, hrec, hty, hraw, hsl⟩
        rw [hsm] at hrec
        rcases hLmap rec hrec with h1 | ⟨c, hc, std, hlk, hns, hform, hkey⟩
        · rcases (hEmap rec).mp h1 with h2 | ⟨r', hr', cv, std, hlkv, hrec'⟩
          · exact absurd ((recInSlice_rowKey rec ctx.key).mp hsl)
              (hK _ (hI.2 rec h2))
          · have hty2 : ("EXACT" : String) = "LLM" := by
              rw [hrec'] at hty; exact hty
            exact absurd hty2 (by decide)
        · rw [hraw] at hlk hns
          have hkey2 : rowKey rec = mkKey r ctx.snapshotDate ctx.key := by
            rw [show rowKey rec = rowKey (llmMapRow ctx rec.rawLineItem c std)
              from congrArg rowKey hform, rowKey_llmMapRow, hraw]
          rw [hkey2] at hkey
          constructor
          · intro hsome
            exact hkey ((hEseen _).mpr (Or.inr ⟨r, hr, hsome, rfl⟩))
          · rw [mem_mappedRawsOf]
            exact ⟨List.mem_map.mpr ⟨(c, r), pyLookup_eq_some_mem _ _ _ hlk, rfl⟩,
              hns⟩
      · rintro ⟨hsome, hmr⟩
        obtain ⟨hmem, hns⟩ := (mem_mappedRawsOf llmRes r).mp hmr
        obtain ⟨c, hcr, hlk⟩ := value_mem_lookup llmRes hkeysN r hmem
        have hc : c ∈ cs := hkeys (c, r) hcr
        have hfresh : mkKey r ctx.snapshotDate ctx.key ∉
            (exactPass ctx vm headers ([], st0)).2.seen := by
          intro hc'
          rcases (hEseen _).mp hc' with h1 | ⟨r', hr', hsome', hkeq⟩
          · exact hK _ h1 (keyInSlice_mkKey r ctx.snapshotDate ctx.key)
          · have hre : r = r' := mkKey_inj_raw r r' ctx.snapshotDate ctx.key hkeq
            subst hre
            exact hsome hsome'
        obtain ⟨rec, hrec, hty, hraw, hsl⟩ := llmLoop_llm_record ctx vm llmRes cs
          _ acc2 c r hloop hc hlk hns (Or.inl hfresh)
        exact ⟨rec, by rw [hsm]; exact hrec, hty, hraw, hsl⟩
    have hUiff : (∃ row ∈ s'.auditRows, row.status = "RAW_UNMAPPED" ∧
        row.llmDetail = some r ∧ rowInSlice row ctx.key) ↔
        (¬(pyLookup vm (norm r)).isSome = true ∧ r ∉ mappedRawsOf llmRes) := by
      constructor
      · rintro ⟨row, hrow, hst, hdet, hsl⟩
        rcases haud row hrow with h1 | ⟨c, hc, std, h2⟩ | ⟨r', hr', heq⟩ |
          ⟨m, hm, cv, std, hlkm, heq⟩
        · exact absurd hsl (hA row h1)
        · rcases h2 with ⟨heq, hsent⟩ | ⟨rr, heq⟩
          · rw [heq] at hst
            have h3 : (pyLookup llmRes c).getD "LLM_ERROR" = "RAW_UNMAPPED" := hst
            rw [h3] at hsent
            exact absurd hsent (by decide)
          · rw [heq] at hst
            exact absurd (show ("LOW_CONFIDENCE" : String) = "RAW_UNMAPPED" from hst)
              (by decide)
        · rw [heq] at hdet
          injection (show some r' = some r from hdet) with hre
          subst hre
          obtain ⟨_, hsome, hmr⟩ := (mem_noiseOf vm llmRes headers r').mp hr'
          exact ⟨hsome, hmr⟩
        · rw [heq] at hst
          exact absurd (show ("EXPECTED_MISSING" : String) = "RAW_UNMAPPED" from hst)
            (by decide)
      · rintro ⟨hsome, hmr⟩
        refine ⟨rawUnmappedRow ctx r, ?_, rfl, rfl, ⟨rfl, rfl, rfl, rfl⟩⟩
        rw [hsa]
        refine List.mem_append.mpr (Or.inl (List.mem_append.mpr (Or.inr ?_)))
        exact List.mem_map.mpr ⟨r, (mem_noiseOf vm llmRes headers r).mpr
          ⟨hr, hsome, hmr⟩, rfl⟩
    unfold exactlyOne
    by_cases heM : (pyLookup vm (norm r)).isSome = true
    · refine Or.inl ⟨hEiff.mpr heM, ?_, ?_⟩
      · intro hL
        exact (hLiff.mp hL).1 heM
      · intro hU
        exact (hUiff.mp hU).1 heM
    · by_cases hMR : r ∈ mappedRawsOf llmRes
      · refine Or.inr (Or.inl ⟨?_, hLiff.mpr ⟨heM, hMR⟩, ?_⟩)
        · intro hE
          exact heM (hEiff.mp hE)
        · intro hU
          exact (hUiff.mp hU).2 hMR
      · refine Or.inr (Or.inr ⟨?_, ?_, hUiff.mpr ⟨heM, hMR⟩⟩)
        · intro hE
          exact heM (hEiff.mp hE)
        · intro hL
          exact hMR (hLiff.mp hL).2
  · intro c hc
    rcases llmLoop_per_canonical ctx vm llmRes cs _ acc2 hloop c hc with hns |
      ⟨std, hrow, hsent⟩
    · have hlk := getD_nonsentinel llmRes c hns
      refine Or.inr ⟨(pyLookup llmRes c).getD "LLM_ERROR", hlk, hns, ?_⟩
      by_cases hfresh : mkKey ((pyLookup llmRes c).getD "LLM_ERROR")
          ctx.snapshotDate ctx.key ∈ (exactPass ctx vm headers ([], st0)).2.seen
      · rcases (hEseen _).mp hfresh with h1 | ⟨r', hr', hsome', hkeq⟩
        · exact absurd (keyInSlice_mkKey _ ctx.snapshotDate ctx.key) (hK _ h1)
        · obtain ⟨⟨cv, std'⟩, hlkv⟩ := Option.isSome_iff_exists.mp hsome'
          have hre : (pyLookup llmRes c).getD "LLM_ERROR" = r' :=
            mkKey_inj_raw _ _ ctx.snapshotDate ctx.key hkeq
          refine ⟨exactMapRow ctx r' cv std', ?_, ⟨rfl, rfl, rfl, rfl⟩, hre.symm⟩
          rw [hsm, htL]
          exact List.mem_append.mpr (Or.inl ((hEmap _).mpr
            (Or.inr ⟨r', hr', cv, std', hlkv, rfl⟩)))
      · obtain ⟨rec, hrec, hty, hraw, hsl⟩ := llmLoop_llm_record ctx vm llmRes cs
          _ acc2 c _ hloop hc hlk hns (Or.inl hfresh)
        exact ⟨rec, by rw [hsm]; exact hrec, hsl, hraw⟩
    · refine Or.inl ⟨sentinelRow ctx c std ((pyLookup llmRes c).getD "LLM_ERROR"),
        ?_, ⟨rfl, rfl, rfl, rfl⟩, rfl, hsent⟩
      rw [hsa]
      exact List.mem_append.mpr (Or.inl (List.mem_append.mpr (Or.inl hrow)))
  · intro row hrow hsl hst
    rcases haud row hrow with h1 | ⟨c, hc, std, h2⟩ | ⟨r', hr', heq⟩ |
      ⟨m, hm, cv, std, hlkm, heq⟩
    · exact absurd hsl (hA row h1)
    · rcases h2 with ⟨heq, hsent⟩ | ⟨rr, heq⟩
      · rw [heq] at hst
        have h3 : (pyLookup llmRes c).getD "LLM_ERROR" = "EXPECTED_MISSING" := hst
        rw [h3] at hsent
        exact absurd hsent (by decide)
      · rw [heq] at hst
        exact absurd (show ("LOW_CONFIDENCE" : String) = "EXPECTED_MISSING" from hst)
          (by decide)
    · rw [heq] at hst
      exact absurd (show ("RAW_UNMAPPED" : String) = "EXPECTED_MISSING" from hst)
        (by decide)
    · refine ⟨m, by rw [heq]; rfl, ?_⟩
      intro hmh
      have hm' := List.mem_filter.mp hm
      obtain ⟨p, hp, hpv⟩ := List.mem_map.mp hm'.1
      have hnm : m ∉ acc2.1 := by
        have h4 := hm'.2
        simp only [Bool.not_eq_true', List.elem_eq_mem,
          decide_eq_false_iff_not] at h4
        exact h4
      have hlq : pyLookup vm (norm m) = some (m, p.2.2) :=
        vm_value_lookup vm hvmkey hvmnd m p hp hpv
      have hmap1 : m ∈ (exactPass ctx vm headers ([], st0)).1 :=
        (hEmapped m).mpr (Or.inr ⟨m, hmh, p.2.2, hlq⟩)
      exact hnm (hLmap2 m hmap1)

/-- C8 as stated is false in its "exactly one" part for canonical items: with
the timeless vocabulary `{"Revenue": []}` and the single raw header
`"Revenue"`, the exact matcher maps the header (an `EXACT` mapping row whose
company line item is `"Revenue"`), yet because the full header list is handed
to the LLM pass (claim C5) and the LLM answers `NONE` for `"Revenue"`, a
`NONE` audit row for the same canonical item is also emitted — the canonical
item ends in both the mapped bucket and the `NONE` bucket, not exactly one. -/
theorem C8_counterexample :
    ∃ st, handleSlice "r" "ABC" [] [("Revenue", [])]
        (fun cs _ => some (cs.map (fun c => (c, "NONE")))) initState
        ⟨100, "Q1", "Q", "G"⟩ ⟨"a.csv", ["Revenue"]⟩ = .ok st ∧
      (∃ rec ∈ st.mapRows, rec.companyLineItem = "Revenue" ∧
        rec.matchType = "EXACT") ∧
      (∃ row ∈ st.auditRows, row.companyLineItem = some "Revenue" ∧
        row.status = "NONE") := by
  refine ⟨_, rfl, ?_, ?_⟩ <;> decide

/-- C8 (amended): for every slice handled from a starting state holding no
composite keys and no audit rows of that slice, with duplicate-free headers
and an enum-respecting LLM response: (a) every raw header ends in exactly one
of the three buckets — exact-matched (an `EXACT` mapping row for it),
LLM-matched (an `LLM` mapping row for it), or audited `RAW_UNMAPPED` — with no
header silently dropped; (b) every canonical item handed to the LLM ends
mapped or audited, namely it either receives a `NONE`/`AMBIG`/`LLM_ERROR`
audit row or its non-sentinel LLM raw match is covered by a mapping row of the
slice (its own `LLM` row, or the earlier row that claimed the same composite
key — so a canonical item can also be audited in addition to being mapped,
and "exactly one" fails, see the counterexample); and (c) an
`EXPECTED_MISSING` audit row is recorded only for an expected company line
item that never appeared among the slice's raw headers at all. -/
theorem C8_audit_completeness (run symbol : String) (dated : List (Nat × CanonMap))
    (timeless : CanonMap) (oracle : Oracle) (st0 : PassState) (k : SliceKey)
    (d : SliceData) (s' : PassState) (cs rs : List String)
    (hN : d.headers.Nodup)
    (hK : ∀ key ∈ st0.seen, ¬ keyInSlice key k)
    (hA : ∀ row ∈ st0.auditRows, ¬ rowInSlice row k)
    (hI : DedupInv st0)
    (hOr : ∀ arr, oracle cs rs = some arr → respHonorsSchema cs rs arr)
    (h : handleSlice run symbol dated timeless oracle st0 k d = .ok s')
    (ha : llmCallArgs dated timeless k d = .ok (cs, rs)) :
    (∀ r ∈ d.headers, exactlyOne
      (∃ rec ∈ s'.mapRows, rec.matchType = "EXACT" ∧ rec.rawLineItem = r ∧
        recInSlice rec k)
      (∃ rec ∈ s'.mapRows, rec.matchType = "LLM" ∧ rec.rawLineItem = r ∧
        recInSlice rec k)
      (∃ row ∈ s'.auditRows, row.status = "RAW_UNMAPPED" ∧ row.llmDetail = some r ∧
        rowInSlice row k)) ∧
    (∀ c ∈ cs,
      (∃ row ∈ s'.auditRows, rowInSlice row k ∧ row.companyLineItem = some c ∧
        row.status ∈ sentinels) ∨
      (∃ r, pyLookup (mapCanonicalToRaw cs rs (oracle cs rs)) c = some r ∧
        r ∉ sentinels ∧
        ∃ rec ∈ s'.mapRows, recInSlice rec k ∧ rec.rawLineItem = r)) ∧
    (∀ row ∈ s'.auditRows, rowInSlice row k → row.status = "EXPECTED_MISSING" →
      ∃ m, row.companyLineItem = some m ∧ m ∉ d.headers) := by
  obtain ⟨hrs, sd, sc, acc2, hcs, hloop, hrest⟩ :=
    handleSlice_args_decomp run symbol dated timeless oracle st0 k d s' cs rs h ha
  subst hrs
  subst hcs
  have hkeys : ∀ p ∈ mapCanonicalToRaw (buildVocab sc timeless).2 d.headers
      (oracle (buildVocab sc timeless).2 d.headers),
      p.1 ∈ (buildVocab sc timeless).2 := by
    intro p hp
    rcases horc : oracle (buildVocab sc timeless).2 d.headers with _ | arr
    · rw [horc] at hp
      have hp' := pyDictOf_mem _ _ hp
      obtain ⟨c, hc, heq⟩ := List.mem_map.mp hp'
      rw [← heq]
      exact hc
    · rw [horc] at hp
      have hp' := pyDictOf_mem _ _ hp
      have hsch := hOr arr horc p hp'
      exact (List.mem_filter.mp hsch.1).1
  have hmain := slice_buckets ⟨run, symbol, d.csvPath, k, sd⟩
    (buildVocab sc timeless).1 (buildVocab sc timeless).2
    (mapCanonicalToRaw (buildVocab sc timeless).2 d.headers
      (oracle (buildVocab sc timeless).2 d.headers))
    d.headers st0 acc2 s' hN hK hA hI
    (mapCanonicalToRaw_keysNodup _ _ _) hkeys
    (buildVocab_key_norm sc timeless) (buildVocab_keysNodup sc timeless)
    hloop hrest
  exact hmain

theorem C8_audit_completeness_witness :
    ∃ s', handleSlice "r" "ABC" [] [("Revenue", ["Total Revenue"])]
        (fun cs _ => some (cs.map (fun c => (c, "NONE")))) initState
        ⟨100, "Q1", "Q", "G"⟩ ⟨"a.csv", ["Total Revenue"]⟩ = .ok s' ∧
      ((∀ r ∈ (⟨"a.csv", ["Total Revenue"]⟩ : SliceData).headers, exactlyOne
        (∃ rec ∈ s'.mapRows, rec.matchType = "EXACT" ∧ rec.rawLineItem = r ∧
          recInSlice rec ⟨100, "Q1", "Q", "G"⟩)
        (∃ rec ∈ s'.mapRows, rec.matchType = "LLM" ∧ rec.rawLineItem = r ∧
          recInSlice rec ⟨100, "Q1", "Q", "G"⟩)
        (∃ row ∈ s'.auditRows, row.status = "RAW_UNMAPPED" ∧
          row.llmDetail = some r ∧ rowInSlice row ⟨100, "Q1", "Q", "G"⟩)) ∧
      (∀ c ∈ ["Revenue"],
        (∃ row ∈ s'.auditRows, rowInSlice row ⟨100, "Q1", "Q", "G"⟩ ∧
          row.companyLineItem = some c ∧ row.status ∈ sentinels) ∨
        (∃ r, pyLookup (mapCanonicalToRaw ["Revenue"] ["Total Revenue"]
            ((fun cs _ => some (cs.map (fun c => (c, "NONE"))) : Oracle)
              ["Revenue"] ["Total Revenue"])) c = some r ∧
          r ∉ sentinels ∧
          ∃ rec ∈ s'.mapRows, recInSlice rec ⟨100, "Q1", "Q", "G"⟩ ∧
            rec.rawLineItem = r)) ∧
      (∀ row ∈ s'.auditRows, rowInSlice row ⟨100, "Q1", "Q", "G"⟩ →
        row.status = "EXPECTED_MISSING" →
        ∃ m, row.companyLineItem = some m ∧
          m ∉ (⟨"a.csv", ["Total Revenue"]⟩ : SliceData).headers)) := by
  refine ⟨_, rfl, ?_⟩
  exact C8_audit_completeness "r" "ABC" [] [("Revenue", ["Total Revenue"])]
    (fun cs _ => some (cs.map (fun c => (c, "NONE")))) initState
    ⟨100, "Q1", "Q", "G"⟩ ⟨"a.csv", ["Total Revenue"]⟩ _
    ["Revenue"] ["Total Revenue"]
    (by decide)
    (by intro key hkey; simp [initState] at hkey)
    (by intro row hrow; simp [initState] at hrow)
    ⟨by simp [DedupInv, initState], by simp [DedupInv, initState]⟩
    (by
      intro arr harr
      injection harr with harr
      subst harr
      unfold respHonorsSchema
      decide)
    rfl rfl

end JSEStd
